import Mathlib

/-!
Verification of the wabt decompiler's expression pretty-printer
(`src/decompiler.cc`) against its natural-language specification.

Lines of rendered text are modelled as `List Char` (a faithful image of
`std::string`, which is a byte array: all content here is ASCII).  Every
place where the C++ indexes a vector or string without a bounds check
(`v[0]`, `v.back()`, `s.back()`) is embedded as an explicit `Option`
access, so `none` marks exactly the executions that are undefined
behaviour in the source.  External collaborators (the naming pass, opcode
metadata `GetDecomp`, the load/store tracker's `GenStruct`/`GenAccess`)
are out of scope of the file under `src/`; their outputs appear as string
fields of the input `Node`, exactly as `DecompileExpr` receives them.
-/

namespace Wabt

/-- One text line of rendered output, as the characters of a `std::string`. -/
abbrev Str := List Char

/-- Rendered fragment: ordered lines plus the lazy-bracketing flag
(`Decompiler::Value`, decompiler.cc:36-58). -/
structure Value where
  v : List Str
  needs_bracketing : Bool
deriving Repr, DecidableEq

/-- `Value::width()`: maximum line length (decompiler.cc:45-51). -/
def Value.width (val : Value) : Nat :=
  val.v.foldl (fun w s => max w s.length) 0

/-- `Indent(amount)`: a run of spaces (decompiler.cc:68-70). -/
def Indent (amount : Nat) : Str := List.replicate amount ' '

/-- `IndentValue(val, amount, first_indent)` (decompiler.cc:78-86): prepend
`amount` spaces to every line, except that a non-empty `first_indent`
replaces the indentation of the first line. -/
def IndentValue (val : Value) (amount : Nat) (first_indent : Str) : Value :=
  { val with
    v := match val.v with
      | [] => []
      | s :: rest =>
        ((if first_indent.isEmpty then Indent amount else first_indent) ++ s)
          :: rest.map (fun t => Indent amount ++ t) }

/-- `l.back().append(suffix)`: append to the last element of a list of
lines; `none` models the out-of-range `back()` on an empty vector. -/
def appendLast : List Str → Str → Option (List Str)
  | [], _ => none
  | [s], suf => some [s ++ suf]
  | s :: t :: rest, suf => (appendLast (t :: rest) suf).map (fun l => s :: l)

/-- `OpcodeToToken`: the opcode's decomp name with `.` replaced by `_`
(decompiler.cc:72-76). -/
def OpcodeToToken (s : Str) : Str :=
  s.map (fun c => if c = '.' then '_' else c)

/-- `WrapChild(child, prefix, postfix)` (decompiler.cc:88-109), with the
target width `tw` and `indent_amount` `ia` as the `Decompiler` fields. -/
def WrapChild (tw ia : Nat) (child : Value) (pre post : Str) : Option Value :=
  let width := pre.length + post.length + child.width
  if width < tw ∨ (pre.length ≤ ia ∧ post.length ≤ ia) then
    match child.v with
    | [s] => some ⟨[pre ++ s ++ post], child.needs_bracketing⟩
    | _ =>
      (appendLast (IndentValue child pre.length pre).v post).map
        (fun ls => ⟨ls, child.needs_bracketing⟩)
  else
    (appendLast (pre :: (IndentValue child ia []).v) post).map
      (fun ls => ⟨ls, child.needs_bracketing⟩)

/-- `BracketIfNeeded` (decompiler.cc:111-115). -/
def BracketIfNeeded (tw ia : Nat) (val : Value) : Option Value :=
  if val.needs_bracketing then
    (WrapChild tw ia val ['('] [')']).map (fun w => ⟨w.v, false⟩)
  else some val

/-- `WrapBinary(args, infix, indent_right)` (decompiler.cc:117-134).  In the
single-line branch the guard forces both operands to be singletons, so the
`headD` defaults are never used. -/
def WrapBinary (tw ia : Nat) (l r : Value) (infx : Str) (indent_right : Bool) :
    Option Value := do
  let left ← BracketIfNeeded tw ia l
  let right ← BracketIfNeeded tw ia r
  let width := infx.length + left.width + right.width
  if width < tw ∧ left.v.length = 1 ∧ right.v.length = 1 then
    some ⟨[left.v.headD [] ++ infx ++ right.v.headD []], true⟩
  else do
    let lv ← appendLast left.v infx
    let rv := (if indent_right then IndentValue right ia [] else right).v
    some ⟨lv ++ rv, true⟩

/-- The `", "`-separated join built by the loops in `WrapNAry` and
`FlushToVars` (`if (&child != &args[0]) s += ", ";`). -/
def joinComma : List Str → Str
  | [] => []
  | [p] => p
  | p :: q :: rest => p ++ ", ".data ++ joinComma (q :: rest)

/-- The per-argument loop of the multi-line branch of `WrapNAry`
(decompiler.cc:162-170): indent each argument (the first merged with the
prefix when `ident_with_name`), add `","` after every argument but the
last. -/
def naryLines (ia : Nat) (iwn : Bool) (pre : Str) :
    Bool → List Value → Option (List Str)
  | _, [] => some []
  | isFirst, a :: rest => do
    let a' := IndentValue a (if iwn then pre.length else ia)
                (if isFirst && iwn then pre else [])
    let ls ← if rest.isEmpty then some a'.v else appendLast a'.v [',']
    let more ← naryLines ia iwn pre false rest
    some (ls ++ more)

/-- The `child.v[0]` reads of the single-line loop of `WrapNAry`
(decompiler.cc:150-155); `none` models the out-of-range index on an
empty vector. -/
def headsOf : List Value → Option (List Str)
  | [] => some []
  | a :: rest => do
    let h ← a.v.head?
    let more ← headsOf rest
    some (h :: more)

/-- `WrapNAry(args, prefix, postfix)` (decompiler.cc:136-175). -/
def WrapNAry (tw ia : Nat) (args : List Value) (pre post : Str) : Option Value :=
  let total_width := (args.map Value.width).sum
  let max_width := (args.map Value.width).foldl max 0
  let multiline := args.any (fun a => 1 < a.v.length)
  if multiline = false ∧ (total_width + pre.length + post.length < tw ∨ args = [])
  then do
    let parts ← headsOf args
    some ⟨[pre ++ joinComma parts ++ post], false⟩
  else do
    let iwn := decide (max_width + pre.length < tw)
    let ls ← naryLines ia iwn pre true args
    let ls := if iwn then ls else pre :: ls
    let ls ← appendLast ls post
    some ⟨ls, false⟩

/-- `TempVarName(n)` = `"t" ++ n` (decompiler.cc:193-198). -/
def TempVarName (n : Nat) : Str := 't' :: (Nat.repr n).data

/-- The `decls` string built by the `FlushToVars` case
(decompiler.cc:226-233). -/
def flushDecls (var_start var_count : Nat) : Str :=
  "let ".data ++ joinComma ((List.range var_count).map
    (fun i => TempVarName (var_start + i))) ++ " = ".data

/-- `static_cast<int32_t>(u32)` on the stored constant bits. -/
def int32OfBits (u : Nat) : Int :=
  let m : Nat := u % 2 ^ 32
  if m < 2 ^ 31 then (m : Int) else (m : Int) - 2 ^ 32

/-- `static_cast<int64_t>(u64)` on the stored constant bits. -/
def int64OfBits (u : Nat) : Int :=
  let m : Nat := u % 2 ^ 64
  if m < 2 ^ 63 then (m : Int) else (m : Int) - 2 ^ 64

/-- `std::to_string` of an integer, as characters. -/
def istr (i : Int) : Str := (Int.repr i).data

/-- `std::to_string` of an unsigned integer, as characters. -/
def nstr (n : Nat) : Str := (Nat.repr n).data

/-- The while-loop of `Decompiler::to_string` (decompiler.cc:60-66), acting
on the reversed character list: pop trailing characters while the string is
longer than 2, ends in `'0'`, and the character before that is not `'.'`. -/
def trimRev : Str → Str
  | b :: c :: rest =>
    if b = '0' ∧ c ≠ '.' ∧ 2 < (b :: c :: rest).length
    then trimRev (c :: rest) else b :: c :: rest
  | l => l
termination_by l => l.length

/-- `Decompiler::to_string(double)` minus the (unembeddable) call to
`std::to_string(double)`: the trailing-zero trim applied to the default
decimal rendering `s` (decompiler.cc:60-66). -/
def to_string_trimmed (s : Str) : Str := (trimRev s.reverse).reverse

/-- The inputs of `LoadStore` (decompiler.cc:205-217) that come from the
opcode metadata and the load/store tracker: `GenAccess`'s answer, the
offset, `GetDecompTypeName(GetMemoryType(..))`, `IsNaturallyAligned`, and
the alignment. -/
structure LSInfo where
  access : Str
  offset : Nat
  typeName : Str
  naturallyAligned : Bool
  align : Nat
deriving Repr, DecidableEq

/-- The suffix appended to the last line by `LoadStore`
(decompiler.cc:209-216). -/
def lsSuffix (info : LSInfo) : Str :=
  if info.access ≠ [] then '.' :: info.access
  else '[' :: nstr info.offset ++ "]:".data ++ info.typeName ++
    (if info.naturallyAligned then [] else '@' :: nstr info.align)

/-- `LoadStore` (decompiler.cc:205-217): bracket if needed, then append the
access suffix to the last line. -/
def LoadStore (tw ia : Nat) (val : Value) (info : LSInfo) : Option Value := do
  let v ← BracketIfNeeded tw ia val
  (appendLast v.v (lsSuffix info)).map (fun ls => ⟨ls, v.needs_bracketing⟩)

/-- `Set` (decompiler.cc:181-184): mark the child as needing brackets and
wrap it with `"{name} = "`. -/
def SetVar (tw ia : Nat) (child : Value) (name : Str) : Option Value :=
  WrapChild tw ia ⟨child.v, true⟩ (name ++ " = ".data) []

/-- `Block` (decompiler.cc:186-191): indent the body, prepend the header
line, append `"}"`. -/
def BlockVal (ia : Nat) (val : Value) (header : Str) : Value :=
  ⟨header :: (IndentValue val ia []).v ++ ["\x7d".data], val.needs_bracketing⟩

/-- The `ExprType::If` case (decompiler.cc:340-374). -/
def renderIf (tw ia : Nat) (ifs thenp : Value) (elsep : Option Value) :
    Option Value :=
  let width := ifs.width + thenp.width +
    (match elsep with | some e => e.width | none => 0)
  let elseLines := match elsep with | some e => e.v.length | none => 0
  if 1 < ifs.v.length ∨ 1 < thenp.v.length ∨ 1 < elseLines ∨ tw < width then
    match ifs.v with
    | [] => none
    | c0 :: crest => do
      let iv ← appendLast (("if (".data ++ c0) :: crest) ") \x7b".data
      let tl := (IndentValue thenp ia []).v
      let el := match elsep with
        | none => []
        | some e => "\x7d else \x7b".data :: (IndentValue e ia []).v
      some ⟨iv ++ tl ++ el ++ ["\x7d".data], ifs.needs_bracketing⟩
  else
    match ifs.v, thenp.v with
    | [c0], [t0] =>
      let base := "if (".data ++ c0 ++ ") \x7b ".data ++ t0 ++ " \x7d".data
      match elsep with
      | none => some ⟨[base], false⟩
      | some e =>
        match e.v with
        | [e0] => some ⟨[base ++ " else \x7b ".data ++ e0 ++ " \x7d".data], false⟩
        | _ => none
    | _, _ => none

/-- The `NodeType::Statements` loop (decompiler.cc:238-247): append `';'`
to each child's last line unless it already ends in `'}'`, and concatenate.
`none` marks the two unchecked accesses `args[i].v.back()` and
`s.back()`. -/
def statementsLines : List Value → Option (List Str)
  | [] => some []
  | a :: rest =>
    match a.v.getLast? with
    | none => none
    | some s =>
      match s.getLast? with
      | none => none
      | some c =>
        let t := if c = '\x7d' then s else s ++ [';']
        (statementsLines rest).map (fun more => (a.v.dropLast ++ [t]) ++ more)

/-- The input tree (`Node` of decompiler-ast.h as consumed by
`DecompileExpr`).  String fields carry exactly what the C++ reads from the
module, the naming pass, the opcode tables and the load/store tracker. -/
inductive Node where
  | flushToVars (var_start var_count : Nat) (children : List Node)
  | flushedVar (var_start : Nat)
  | statements (children : List Node)
  | endReturn (children : List Node)
  | decl (localDecl : Str)
  | declInit (localDecl : Str) (init : Node)
  | constI32 (bits : Nat)
  | constI64 (bits : Nat)
  | constF32 (dec : Str)
  | constF64 (dec : Str)
  | constV128
  | localGet (name : Str)
  | globalGet (name : Str)
  | localSet (name : Str) (child : Node)
  | globalSet (name : Str) (child : Node)
  | localTee (name : Str) (children : List Node)
  | binary (opcode : Str) (lhs rhs : Node)
  | compare (opcode : Str) (lhs rhs : Node)
  | unary (opcode : Str) (child : Node)
  | load (info : LSInfo) (addr : Node)
  | store (info : LSInfo) (addr value : Node)
  | ifThen (cond thenB : Node)
  | ifElse (cond thenB elseB : Node)
  | blockNode (label : Str) (body : Node)
  | loopNode (label : Str) (body : Node)
  | br (isLoopLabel : Bool) (label : Str)
  | brIf (isLoopLabel : Bool) (label : Str) (cond : Node)
  | ret (children : List Node)
  | dropNode (child : Node)
  | callLike (name : Str) (children : List Node)

mutual

/-- `DecompileExpr` (decompiler.cc:219-416): render children, dispatch on
the node kind.  `tw`/`ia` are the `target_exp_width` and `indent_amount`
fields. -/
def DecompileExpr (tw ia : Nat) : Node → Option Value
  | .flushToVars s c cs => do
    let args ← DecompileList tw ia cs
    WrapNAry tw ia args (flushDecls s c) []
  | .flushedVar s => some ⟨[TempVarName s], false⟩
  | .statements cs => do
    let args ← DecompileList tw ia cs
    let ls ← statementsLines args
    some ⟨ls, false⟩
  | .endReturn cs => do
    let args ← DecompileList tw ia cs
    WrapNAry tw ia args "return ".data []
  | .decl ld => some ⟨["var ".data ++ ld], false⟩
  | .declInit ld c => do
    let a ← DecompileExpr tw ia c
    WrapChild tw ia a ("var ".data ++ ld ++ " = ".data) []
  | .constI32 u => some ⟨[istr (int32OfBits u)], false⟩
  | .constI64 u => some ⟨[istr (int64OfBits u) ++ ['L']], false⟩
  | .constF32 s => some ⟨[to_string_trimmed s ++ ['f']], false⟩
  | .constF64 s => some ⟨[to_string_trimmed s], false⟩
  | .constV128 => some ⟨["V128".data], false⟩
  | .localGet name => some ⟨[name], false⟩
  | .globalGet name => some ⟨[name], false⟩
  | .localSet name c => do
    let a ← DecompileExpr tw ia c
    SetVar tw ia a name
  | .globalSet name c => do
    let a ← DecompileExpr tw ia c
    SetVar tw ia a name
  | .localTee name cs => do
    let args ← DecompileList tw ia cs
    match args with
    | [] => some ⟨[name], false⟩
    | a :: _ => SetVar tw ia a name
  | .binary op l r => do
    let a ← DecompileExpr tw ia l
    let b ← DecompileExpr tw ia r
    WrapBinary tw ia a b (' ' :: OpcodeToToken op ++ [' ']) false
  | .compare op l r => do
    let a ← DecompileExpr tw ia l
    let b ← DecompileExpr tw ia r
    WrapBinary tw ia a b (' ' :: OpcodeToToken op ++ [' ']) false
  | .unary op c => do
    let a ← DecompileExpr tw ia c
    WrapChild tw ia a (OpcodeToToken op ++ ['(']) [')']
  | .load info addr => do
    let a ← DecompileExpr tw ia addr
    LoadStore tw ia a info
  | .store info addr value => do
    let a ← DecompileExpr tw ia addr
    let b ← DecompileExpr tw ia value
    let a' ← LoadStore tw ia a info
    WrapBinary tw ia a' b " = ".data true
  | .ifThen c t => do
    let cv ← DecompileExpr tw ia c
    let tv ← DecompileExpr tw ia t
    renderIf tw ia cv tv none
  | .ifElse c t e => do
    let cv ← DecompileExpr tw ia c
    let tv ← DecompileExpr tw ia t
    let ev ← DecompileExpr tw ia e
    renderIf tw ia cv tv (some ev)
  | .blockNode label body => do
    let bv ← DecompileExpr tw ia body
    some (BlockVal ia bv ("block ".data ++ label ++ " \x7b".data))
  | .loopNode label body => do
    let bv ← DecompileExpr tw ia body
    some (BlockVal ia bv ("loop ".data ++ label ++ " \x7b".data))
  | .br isLoop label =>
    some ⟨[(if isLoop then "continue ".data else "break ".data) ++ label], false⟩
  | .brIf isLoop label c => do
    let a ← DecompileExpr tw ia c
    WrapChild tw ia a "if (".data
      (") ".data ++ (if isLoop then "continue".data else "break".data) ++
       ' ' :: label)
  | .ret cs => do
    let args ← DecompileList tw ia cs
    WrapNAry tw ia args "return ".data []
  | .dropNode c => DecompileExpr tw ia c
  | .callLike name cs => do
    let args ← DecompileList tw ia cs
    WrapNAry tw ia args (name ++ ['(']) [')']

/-- The child-rendering loop at the top of `DecompileExpr`
(decompiler.cc:220-223). -/
def DecompileList (tw ia : Nat) : List Node → Option (List Value)
  | [] => some []
  | n :: rest => do
    let v ← DecompileExpr tw ia n
    let vs ← DecompileList tw ia rest
    some (v :: vs)

end

/-- `Decompiler::target_exp_width` default (decompiler.cc:576). -/
def target_exp_width : Nat := 70

/-- `Decompiler::indent_amount` default (decompiler.cc:575). -/
def indent_amount : Nat := 2

/-- `InitExp` (decompiler.cc:436-443): decompile a one-expression tree and
require a single-line result. -/
def InitExp (n : Node) : Option Str := do
  let val ← DecompileExpr target_exp_width indent_amount n
  match val.v with
  | [s] => some s
  | _ => none

/-- The lowercase hex digits `s_hexdigits` (decompiler.cc:448). -/
def hexDigit (n : Nat) : Char := "0123456789abcdef".data.getD n '0'

/-- `BinaryToString` (decompiler.cc:446-460): accumulate from `"`,
printable ASCII bytes literally, others as `\` plus two lowercase hex
digits, closing `"`. -/
def BinaryToString (bs : List Nat) : Str :=
  (bs.foldl
    (fun s c =>
      if 32 ≤ c ∧ c ≤ 126 then s ++ [Char.ofNat c]
      else s ++ ['\\', hexDigit (c / 16), hexDigit (c % 16)])
    ['\"']) ++ ['\"']

/-- The per-byte encoding `BinaryToString` performs, as the specification
states it: printable ASCII (0x20..0x7E) literally, anything else as a
backslash and two lowercase hex digits. -/
def encByte (c : Nat) : Str :=
  if 32 ≤ c ∧ c ≤ 126 then [Char.ofNat c]
  else ['\\', hexDigit (c / 16), hexDigit (c % 16)]

/-- One entry of the data-segment loop of `Decompile`
(decompiler.cc:512-515). -/
def dataSegmentDecl (name : Str) (offsetExpr : Node) (bytes : List Nat) :
    Option Str :=
  (InitExp offsetExpr).map (fun off =>
    "data ".data ++ name ++ "(offset: ".data ++ off ++ ") = ".data ++
    BinaryToString bytes ++ [';', '\n'])

/-! ### Observations on rendered values -/

/-- The last of a list of lines (empty default). -/
def lastD (l : List Str) : Str := l.getLastD []

/-- The last line of a rendered value (empty default). -/
def lastLineD (v : Value) : Str := lastD v.v

/-- The last character of the last line of a rendered value. -/
def lastCharD (v : Value) : Option Char := (lastLineD v).getLast?

/-- A rendered value in good shape: at least one line and a non-empty last
line, so the unchecked `v.back()` and `s.back()` reads of the source are
in bounds on it. -/
def Good (v : Value) : Prop := v.v ≠ [] ∧ lastLineD v ≠ []

/-- A line with all spaces removed. -/
def eraseStr (s : Str) : Str := s.filter (fun c => c != ' ')

/-- The non-whitespace characters of a list of lines, in order. -/
def eraseLines (l : List Str) : Str := (l.map eraseStr).flatten

/-- The non-whitespace characters of a rendered value, in order.  (The
renderer introduces no whitespace other than spaces and line breaks.) -/
def eraseVal (v : Value) : Str := eraseLines v.v

/-- Space-free image of `joinComma`: arguments separated by single
commas. -/
def joinCommaE : List Str → Str
  | [] => []
  | [p] => p
  | p :: q :: rest => p ++ ',' :: joinCommaE (q :: rest)

/-- The maximal space-separated tokens of a rendered value, reading the
lines in order. -/
def tokensVal (v : Value) : List Str :=
  (v.v.map (fun s => (s.splitOn ' ').filter (fun t => !t.isEmpty))).flatten

/-- The statement-terminator step of the `Statements` case: `';'` appended
unless the line already ends in `'}'`. -/
def termLine (s : Str) : Str :=
  if s.getLast? = some '\x7d' then s else s ++ [';']

/-- A statement's block of lines after termination: all lines but the
last unchanged, the last line terminated. -/
def terminated (a : Value) : List Str :=
  a.v.dropLast ++ [termLine (lastLineD a)]

/-- Space-free rendering of a binary operand: surrounded by parentheses
exactly when its `needs_bracketing` flag is set. -/
def berase (x : Value) : Str :=
  if x.needs_bracketing then '(' :: (eraseVal x ++ [')']) else eraseVal x

/-- Two rendered values (typically of the same node at two target widths)
that are both good and agree on everything except line layout. -/
def GoodR (v1 v2 : Value) : Prop :=
  Good v1 ∧ Good v2 ∧ eraseVal v1 = eraseVal v2 ∧
  v1.needs_bracketing = v2.needs_bracketing ∧ lastCharD v1 = lastCharD v2

/-- The last element of a list of rendered values (empty default). -/
def vlastD (vs : List Value) : Value := vs.getLastD ⟨[], false⟩

/-! ### Well-formed inputs -/

mutual

/-- Inputs on which every unchecked access of `DecompileExpr` is in
bounds: no `Statements` node anywhere has zero children, and the strings
the collaborators guarantee non-empty (identifier names from the naming
pass, the default decimal rendering of a float) are non-empty. -/
def wfNode : Node → Bool
  | .flushToVars _ _ cs => wfList cs
  | .flushedVar _ => true
  | .statements cs => !cs.isEmpty && wfList cs
  | .endReturn cs => wfList cs
  | .decl _ => true
  | .declInit _ c => wfNode c
  | .constI32 _ => true
  | .constI64 _ => true
  | .constF32 s => !s.isEmpty
  | .constF64 s => !s.isEmpty
  | .constV128 => true
  | .localGet name => !name.isEmpty
  | .globalGet name => !name.isEmpty
  | .localSet _ c => wfNode c
  | .globalSet _ c => wfNode c
  | .localTee name cs => (!cs.isEmpty || !name.isEmpty) && wfList cs
  | .binary _ l r => wfNode l && wfNode r
  | .compare _ l r => wfNode l && wfNode r
  | .unary _ c => wfNode c
  | .load _ a => wfNode a
  | .store _ a b => wfNode a && wfNode b
  | .ifThen c t => wfNode c && wfNode t
  | .ifElse c t e => wfNode c && (wfNode t && wfNode e)
  | .blockNode _ b => wfNode b
  | .loopNode _ b => wfNode b
  | .br _ _ => true
  | .brIf _ _ c => wfNode c
  | .ret cs => wfList cs
  | .dropNode c => wfNode c
  | .callLike _ cs => wfList cs

/-- `wfNode` on every element. -/
def wfList : List Node → Bool
  | [] => true
  | n :: rest => wfNode n && wfList rest

end

mutual

/-- Trees containing no `If` expression. -/
def ifFree : Node → Bool
  | .flushToVars _ _ cs => ifFreeList cs
  | .flushedVar _ => true
  | .statements cs => ifFreeList cs
  | .endReturn cs => ifFreeList cs
  | .decl _ => true
  | .declInit _ c => ifFree c
  | .constI32 _ => true
  | .constI64 _ => true
  | .constF32 _ => true
  | .constF64 _ => true
  | .constV128 => true
  | .localGet _ => true
  | .globalGet _ => true
  | .localSet _ c => ifFree c
  | .globalSet _ c => ifFree c
  | .localTee _ cs => ifFreeList cs
  | .binary _ l r => ifFree l && ifFree r
  | .compare _ l r => ifFree l && ifFree r
  | .unary _ c => ifFree c
  | .load _ a => ifFree a
  | .store _ a b => ifFree a && ifFree b
  | .ifThen _ _ => false
  | .ifElse _ _ _ => false
  | .blockNode _ b => ifFree b
  | .loopNode _ b => ifFree b
  | .br _ _ => true
  | .brIf _ _ c => ifFree c
  | .ret cs => ifFreeList cs
  | .dropNode c => ifFree c
  | .callLike _ cs => ifFreeList cs

/-- `ifFree` on every element. -/
def ifFreeList : List Node → Bool
  | [] => true
  | n :: rest => ifFree n && ifFreeList rest

end

/-- Nodes whose rendering is a `Value` with zero lines: an empty
`Statements` node, possibly under `Drop` nodes (which return their child
unchanged). -/
def yieldsEmpty : Node → Bool
  | .statements [] => true
  | .dropNode c => yieldsEmpty c
  | _ => false

/-! ### Concrete input trees used by the claim instances -/

/-- The nested-add expression of the specification's scenario 3:
`i32.add(i32.const 1, i32.add(i32.const 2, i32.const 3))`. -/
def nestedAddTree : Node :=
  .binary "i32.add".data (.constI32 1)
    (.binary "i32.add".data (.constI32 2) (.constI32 3))

/-- A single-line argument of width 34. -/
def aLine : Str := List.replicate 34 'a'

/-- A single-line argument of width 35. -/
def bLine : Str := List.replicate 35 'b'

/-- A 38-character identifier, wider than a target width of 40 minus the
`"f("` call prefix. -/
def longName : Str := List.replicate 38 'a'

/-- A call with one wide and one narrow argument: single-line at width
200, prefix-on-its-own-line at width 40. -/
def wideCallTree : Node :=
  .callLike "f".data [.localGet longName, .localGet "x".data]

/-- An addition whose right operand is an if/else that fits on one line at
width 200 but is multi-line (and hence keeps its condition's
`needs_bracketing` flag) at width 40. -/
def ifOperandTree : Node :=
  .binary "i32.add".data (.constI32 1)
    (.ifElse (.compare "i32.lt_s".data (.constI32 1000000) (.constI32 2000000))
      (.constI32 777777777) (.constI32 888888888))

/-! ### Basic lemmas about lines, last elements and space erasure -/

theorem getLast?_append_right {α : Type} (a : List α) {b : List α} (h : b ≠ []) :
    (a ++ b).getLast? = b.getLast? := by
  rw [List.getLast?_append, Option.or_of_isSome (List.getLast?_isSome.mpr h)]

theorem lastD_concat (l : List Str) (s : Str) : lastD (l ++ [s]) = s :=
  List.getLastD_concat _ _ _

theorem lastD_cons_of_ne (x : Str) {l : List Str} (h : l ≠ []) :
    lastD (x :: l) = lastD l := by
  cases l with
  | nil => exact absurd rfl h
  | cons b t => rfl

theorem lastD_append (l : List Str) {m : List Str} (h : m ≠ []) :
    lastD (l ++ m) = lastD m := by
  induction l with
  | nil => rfl
  | cons x t ih =>
    rw [List.cons_append,
      lastD_cons_of_ne x (fun hc => h (List.append_eq_nil.mp hc).2), ih]

theorem lastD_eq_getLast {l : List Str} (h : l ≠ []) : lastD l = l.getLast h := by
  calc lastD l = lastD (l.dropLast ++ [l.getLast h]) := by
        rw [List.dropLast_append_getLast h]
    _ = l.getLast h := lastD_concat _ _

theorem dropLast_append_lastD {l : List Str} (h : l ≠ []) :
    l.dropLast ++ [lastD l] = l := by
  rw [lastD_eq_getLast h]; exact List.dropLast_append_getLast h

theorem getLast?_eq_lastD {l : List Str} (h : l ≠ []) :
    l.getLast? = some (lastD l) := by
  conv_lhs => rw [← dropLast_append_lastD h]
  exact List.getLast?_concat _

theorem eraseStr_append (a b : Str) : eraseStr (a ++ b) = eraseStr a ++ eraseStr b :=
  List.filter_append _ _

theorem eraseStr_indent (k : Nat) : eraseStr (Indent k) = [] := by
  induction k with
  | zero => rfl
  | succ n ih =>
    have h1 : Indent (n + 1) = ' ' :: Indent n := by
      simp [Indent, List.replicate_succ]
    rw [h1]
    show List.filter _ (' ' :: Indent n) = []
    rw [List.filter_cons, if_neg (by decide)]
    exact ih

theorem eraseLines_cons (s : Str) (l : List Str) :
    eraseLines (s :: l) = eraseStr s ++ eraseLines l := by
  simp [eraseLines]

theorem eraseLines_append (l m : List Str) :
    eraseLines (l ++ m) = eraseLines l ++ eraseLines m := by
  simp [eraseLines]

theorem eraseLines_map_indent (k : Nat) (l : List Str) :
    eraseLines (l.map (fun t => Indent k ++ t)) = eraseLines l := by
  induction l with
  | nil => rfl
  | cons s t ih =>
    simp only [List.map_cons, eraseLines_cons, eraseStr_append, eraseStr_indent,
      List.nil_append, ih]

theorem appendLast_eq {l : List Str} (suf : Str) (h : l ≠ []) :
    appendLast l suf = some (l.dropLast ++ [lastD l ++ suf]) := by
  induction l with
  | nil => exact absurd rfl h
  | cons s t ih =>
    cases t with
    | nil => simp [appendLast, lastD]
    | cons b t2 =>
      have ht : b :: t2 ≠ [] := by simp
      simp only [appendLast, ih ht, List.dropLast_cons₂,
        lastD_cons_of_ne s ht, List.cons_append]
      rfl

theorem appendLast_src_ne {l : List Str} {suf : Str} {L : List Str}
    (h : appendLast l suf = some L) : l ≠ [] := by
  intro he; subst he; simp [appendLast] at h

theorem appendLast_eq_of_some {l : List Str} {suf : Str} {L : List Str}
    (h : appendLast l suf = some L) : L = l.dropLast ++ [lastD l ++ suf] := by
  have h2 := appendLast_eq suf (appendLast_src_ne h)
  rw [h2] at h
  exact (Option.some.inj h).symm

theorem appendLast_ne {l : List Str} {suf : Str} {L : List Str}
    (h : appendLast l suf = some L) : L ≠ [] := by
  rw [appendLast_eq_of_some h]; simp

theorem appendLast_lastD {l : List Str} {suf : Str} {L : List Str}
    (h : appendLast l suf = some L) : lastD L = lastD l ++ suf := by
  rw [appendLast_eq_of_some h]; exact lastD_concat _ _

theorem appendLast_length {l : List Str} {suf : Str} {L : List Str}
    (h : appendLast l suf = some L) : L.length = l.length := by
  have hne := appendLast_src_ne h
  have hpos : 0 < l.length := List.length_pos.mpr hne
  rw [appendLast_eq_of_some h]
  simp [List.length_append, List.length_dropLast]
  omega

theorem appendLast_erase {l : List Str} {suf : Str} {L : List Str}
    (h : appendLast l suf = some L) :
    eraseLines L = eraseLines l ++ eraseStr suf := by
  have hne := appendLast_src_ne h
  rw [appendLast_eq_of_some h, eraseLines_append]
  conv_rhs => rw [← dropLast_append_lastD hne, eraseLines_append]
  simp only [eraseLines_cons, eraseStr_append, eraseLines, List.map_nil,
    List.flatten_nil, List.append_nil, List.append_assoc]
  simp [eraseStr_append]

theorem IndentValue_nb (val : Value) (k : Nat) (fi : Str) :
    (IndentValue val k fi).needs_bracketing = val.needs_bracketing := by
  obtain ⟨v, nb⟩ := val
  cases v <;> rfl

theorem IndentValue_ne {val : Value} (k : Nat) (fi : Str) (h : val.v ≠ []) :
    (IndentValue val k fi).v ≠ [] := by
  obtain ⟨v, nb⟩ := val
  cases v with
  | nil => exact absurd rfl h
  | cons s rest => simp [IndentValue]

theorem IndentValue_length (val : Value) (k : Nat) (fi : Str) :
    (IndentValue val k fi).v.length = val.v.length := by
  obtain ⟨v, nb⟩ := val
  cases v <;> simp [IndentValue]

theorem IndentValue_erase {val : Value} (k : Nat) (fi : Str) (h : val.v ≠ []) :
    eraseLines (IndentValue val k fi).v = eraseStr fi ++ eraseVal val := by
  obtain ⟨v, nb⟩ := val
  cases v with
  | nil => exact absurd rfl h
  | cons s rest =>
    show eraseLines (((if fi.isEmpty then Indent k else fi) ++ s)
        :: rest.map (fun t => Indent k ++ t)) =
      eraseStr fi ++ eraseLines (s :: rest)
    rw [eraseLines_cons, eraseLines_map_indent, eraseStr_append,
      eraseLines_cons]
    by_cases hfi : fi.isEmpty
    · rw [if_pos hfi]
      have hfi' : fi = [] := by simpa using hfi
      subst hfi'
      rw [eraseStr_indent]
      simp [eraseStr]
    · rw [if_neg hfi]
      simp [List.append_assoc]

theorem lastD_map_indent (k : Nat) {l : List Str} (h : l ≠ []) :
    lastD (l.map (fun t => Indent k ++ t)) = Indent k ++ lastD l := by
  induction l with
  | nil => exact absurd rfl h
  | cons s t ih =>
    cases t with
    | nil => rfl
    | cons b t2 =>
      have ht : b :: t2 ≠ [] := by simp
      rw [List.map_cons, lastD_cons_of_ne _ (by simp), lastD_cons_of_ne s ht,
        ih ht]

theorem IndentValue_lastD {val : Value} (k : Nat) (fi : Str) (h : val.v ≠ []) :
    ∃ p, lastD (IndentValue val k fi).v = p ++ lastLineD val := by
  obtain ⟨v, nb⟩ := val
  cases v with
  | nil => exact absurd rfl h
  | cons s rest =>
    cases rest with
    | nil => exact ⟨if fi.isEmpty then Indent k else fi, rfl⟩
    | cons b t =>
      have ht : b :: t ≠ [] := by simp
      refine ⟨Indent k, ?_⟩
      simp only [IndentValue, lastLineD]
      rw [lastD_cons_of_ne _ (by simp), lastD_map_indent k ht,
        lastD_cons_of_ne s ht]

theorem IndentValue_lastD_ne {val : Value} (k : Nat) (fi : Str)
    (h : val.v ≠ []) (h2 : lastLineD val ≠ []) :
    lastD (IndentValue val k fi).v ≠ [] := by
  obtain ⟨p, hp⟩ := IndentValue_lastD k fi h
  rw [hp]
  simp [List.append_eq_nil, h2]

theorem IndentValue_lastChar {val : Value} (k : Nat) (fi : Str)
    (h : val.v ≠ []) (h2 : lastLineD val ≠ []) :
    (lastD (IndentValue val k fi).v).getLast? = (lastLineD val).getLast? := by
  obtain ⟨p, hp⟩ := IndentValue_lastD k fi h
  rw [hp]
  exact getLast?_append_right _ h2

/-! ### Numerals render to non-empty strings; the trailing-zero trim -/

theorem toDigitsCore_ne {b : Nat} :
    ∀ (f n : Nat) (ds : List Char), ds ≠ [] → Nat.toDigitsCore b f n ds ≠ [] := by
  intro f
  induction f with
  | zero => intro n ds h; simpa [Nat.toDigitsCore] using h
  | succ f ih =>
    intro n ds h
    rw [Nat.toDigitsCore]
    split
    · simp
    · exact ih _ _ (by simp)

theorem toDigits_ne (b n : Nat) : Nat.toDigits b n ≠ [] := by
  rw [Nat.toDigits, Nat.toDigitsCore]
  split
  · simp
  · exact toDigitsCore_ne _ _ _ (by simp)

theorem nstr_ne (n : Nat) : nstr n ≠ [] := toDigits_ne 10 n

theorem istr_ne (i : Int) : istr i ≠ [] := by
  cases i with
  | ofNat m => exact nstr_ne m
  | negSucc m =>
    show (("-" ++ Nat.repr (m + 1)) : String).data ≠ []
    rw [String.data_append]
    simp

theorem tempVarName_ne (n : Nat) : TempVarName n ≠ [] := by simp [TempVarName]

theorem trimRev_ne : ∀ {l : Str}, l ≠ [] → trimRev l ≠ [] := by
  intro l
  induction l using trimRev.induct with
  | case1 b c rest hcond ih =>
    intro _
    rw [trimRev, if_pos hcond]
    exact ih (by simp)
  | case2 b c rest hcond =>
    intro _
    rw [trimRev, if_neg hcond]
    simp
  | case3 l hl =>
    intro h
    have he : trimRev l = l := by
      rw [trimRev.eq_def]
      cases l with
      | nil => rfl
      | cons a t =>
        cases t with
        | nil => rfl
        | cons b t2 => exact absurd rfl (hl a b t2)
    rw [he]; exact h

theorem to_string_trimmed_ne {s : Str} (h : s ≠ []) : to_string_trimmed s ≠ [] := by
  have h1 : s.reverse ≠ [] := by simpa using h
  have h2 := trimRev_ne h1
  simpa [to_string_trimmed] using h2

theorem digit_ne_dot {c : Char} (h : c.isDigit = true) : c ≠ '.' := by
  rintro rfl
  exact absurd h (by decide)

theorem trimRev_frac :
    ∀ (rf ri : Str), rf ≠ [] → (∀ c ∈ rf, c.isDigit = true) →
      ∃ rf', trimRev (rf ++ '.' :: ri) = rf' ++ '.' :: ri ∧ rf' ≠ [] ∧
        (∀ c ∈ rf', c.isDigit = true) ∧ (rf'.head? = some '0' → rf' = ['0']) := by
  intro rf
  induction rf with
  | nil => intro ri h; exact absurd rfl h
  | cons a t ih =>
    intro ri _ hd
    cases t with
    | nil =>
      refine ⟨[a], ?_, by simp, hd, ?_⟩
      · show trimRev (a :: '.' :: ri) = a :: '.' :: ri
        rw [trimRev, if_neg]
        rintro ⟨-, hne, -⟩
        exact hne rfl
      · intro hh
        simp only [List.head?_cons, Option.some_inj] at hh
        simp [hh]
    | cons a2 rest =>
      have ha2d : a2.isDigit = true := hd a2 (by simp)
      have ha2 : a2 ≠ '.' := digit_ne_dot ha2d
      by_cases ha : a = '0'
      · have hcons : (a :: a2 :: rest) ++ '.' :: ri =
            a :: a2 :: (rest ++ '.' :: ri) := by simp
        rw [hcons, trimRev, if_pos]
        · have hlist : a2 :: (rest ++ '.' :: ri) = (a2 :: rest) ++ '.' :: ri := by
            simp
          rw [hlist]
          exact ih ri (by simp) (fun c hc => hd c (List.mem_cons_of_mem a hc))
        · refine ⟨ha, ha2, ?_⟩
          simp only [List.length_cons, List.length_append]
          omega
      · refine ⟨a :: a2 :: rest, ?_, by simp, hd, ?_⟩
        · show trimRev (a :: a2 :: (rest ++ '.' :: ri)) = _
          rw [trimRev, if_neg]
          · simp
          · rintro ⟨h0, -, -⟩
            exact ha h0
        · intro hh
          simp only [List.head?_cons, Option.some_inj] at hh
          exact absurd hh ha

/-! ### Characterization of the layout combinators

Each lemma covers every branch of its combinator uniformly: whichever
branch the width test selects, the combinator succeeds on good input, the
result is good, and its bracketing flag, space-free character sequence and
final character are given by the same formulas. -/

theorem char_WrapChild {c : Value} (tw ia : Nat) (pre post : Str)
    (h1 : c.v ≠ []) (h2 : lastLineD c ≠ []) :
    ∃ w, WrapChild tw ia c pre post = some w ∧
      w.needs_bracketing = c.needs_bracketing ∧ w.v ≠ [] ∧ lastLineD w ≠ [] ∧
      eraseVal w = eraseStr pre ++ eraseVal c ++ eraseStr post ∧
      lastCharD w = (if post = [] then lastCharD c else post.getLast?) := by
  obtain ⟨v, nb⟩ := c
  by_cases hcond : pre.length + post.length + Value.width ⟨v, nb⟩ < tw ∨
      (pre.length ≤ ia ∧ post.length ≤ ia)
  · cases v with
    | nil => exact absurd rfl h1
    | cons s rest =>
      cases rest with
      | nil =>
        have hs : s ≠ [] := h2
        refine ⟨⟨[pre ++ s ++ post], nb⟩, ?_, rfl, by simp, ?_, ?_, ?_⟩
        · simp only [WrapChild]
          rw [if_pos hcond]
        · show pre ++ s ++ post ≠ []
          simp [List.append_eq_nil, hs]
        · show eraseStr (pre ++ s ++ post) ++ [] = _
          simp [eraseStr_append, eraseVal, eraseLines, List.append_assoc]
        · show (pre ++ s ++ post).getLast? = _
          by_cases hp : post = []
          · subst hp
            rw [if_pos rfl]
            show ((pre ++ s) ++ []).getLast? = lastCharD ⟨[s], nb⟩
            rw [List.append_nil, getLast?_append_right pre hs]
            rfl
          · rw [if_neg hp, getLast?_append_right _ hp]
      | cons b t =>
        have hvne : (s :: b :: t : List Str) ≠ [] := by simp
        have hiv := @IndentValue_ne ⟨s :: b :: t, nb⟩ pre.length pre hvne
        obtain ⟨L, hL⟩ : ∃ L,
            appendLast (IndentValue ⟨s :: b :: t, nb⟩ pre.length pre).v post
              = some L := ⟨_, appendLast_eq post hiv⟩
        refine ⟨⟨L, nb⟩, ?_, rfl, appendLast_ne hL, ?_, ?_, ?_⟩
        · simp only [WrapChild]
          rw [if_pos hcond]
          simp [hL]
        · show lastD L ≠ []
          rw [appendLast_lastD hL]
          have := @IndentValue_lastD_ne ⟨s :: b :: t, nb⟩
            pre.length pre hvne h2
          simp [List.append_eq_nil, this]
        · show eraseLines L = _
          rw [appendLast_erase hL,
            @IndentValue_erase ⟨s :: b :: t, nb⟩ pre.length pre hvne]
        · show (lastD L).getLast? = _
          rw [appendLast_lastD hL]
          by_cases hp : post = []
          · subst hp
            rw [if_pos rfl, List.append_nil]
            exact @IndentValue_lastChar ⟨s :: b :: t, nb⟩
              pre.length pre hvne h2
          · rw [if_neg hp, getLast?_append_right _ hp]
  · have hivne := @IndentValue_ne ⟨v, nb⟩ ia [] h1
    have hpc : (pre :: (IndentValue ⟨v, nb⟩ ia []).v) ≠ [] := by simp
    obtain ⟨L, hL⟩ : ∃ L,
        appendLast (pre :: (IndentValue ⟨v, nb⟩ ia []).v) post = some L :=
      ⟨_, appendLast_eq post hpc⟩
    have hlast : lastD (pre :: (IndentValue ⟨v, nb⟩ ia []).v) =
        lastD (IndentValue ⟨v, nb⟩ ia []).v := lastD_cons_of_ne pre hivne
    refine ⟨⟨L, nb⟩, ?_, rfl, appendLast_ne hL, ?_, ?_, ?_⟩
    · simp only [WrapChild]
      rw [if_neg hcond]
      simp [hL]
    · show lastD L ≠ []
      rw [appendLast_lastD hL, hlast]
      have := @IndentValue_lastD_ne ⟨v, nb⟩ ia [] h1 h2
      simp [List.append_eq_nil, this]
    · show eraseLines L = _
      rw [appendLast_erase hL, eraseLines_cons,
        @IndentValue_erase ⟨v, nb⟩ ia [] h1]
      simp [eraseStr, List.append_assoc]
    · show (lastD L).getLast? = _
      rw [appendLast_lastD hL, hlast]
      by_cases hp : post = []
      · subst hp
        rw [if_pos rfl, List.append_nil]
        exact @IndentValue_lastChar ⟨v, nb⟩ ia [] h1 h2
      · rw [if_neg hp, getLast?_append_right _ hp]

theorem char_Bracket {c : Value} (tw ia : Nat)
    (h1 : c.v ≠ []) (h2 : lastLineD c ≠ []) :
    ∃ w, BracketIfNeeded tw ia c = some w ∧
      w.needs_bracketing = false ∧ w.v ≠ [] ∧ lastLineD w ≠ [] ∧
      eraseVal w = berase c ∧
      lastCharD w = (if c.needs_bracketing then some ')' else lastCharD c) := by
  by_cases hnb : c.needs_bracketing
  · obtain ⟨w0, hw0, hnb0, hne0, hl0, he0, hc0⟩ :=
      char_WrapChild (c := c) tw ia ['('] [')'] h1 h2
    refine ⟨⟨w0.v, false⟩, ?_, rfl, hne0, hl0, ?_, ?_⟩
    · simp [BracketIfNeeded, hnb, hw0]
    · show eraseVal w0 = berase c
      rw [he0, berase, if_pos hnb]
      simp [eraseStr]
    · show lastCharD w0 = _
      rw [hc0, if_pos hnb]
      simp
  · refine ⟨c, ?_, by simpa using hnb, h1, h2, ?_, ?_⟩
    · simp [BracketIfNeeded, hnb]
    · rw [berase, if_neg hnb]
    · rw [if_neg hnb]

theorem eraseVal_eq_lines (v : Value) : eraseVal v = eraseLines v.v := rfl

theorem eraseLines_single (s : Str) : eraseLines [s] = eraseStr s := by
  simp [eraseLines]

theorem char_WrapBinary {l r : Value} (tw ia : Nat) (infx : Str) (ir : Bool)
    (hl1 : l.v ≠ []) (hl2 : lastLineD l ≠ [])
    (hr1 : r.v ≠ []) (hr2 : lastLineD r ≠ []) :
    ∃ w, WrapBinary tw ia l r infx ir = some w ∧
      w.needs_bracketing = true ∧ w.v ≠ [] ∧ lastLineD w ≠ [] ∧
      eraseVal w = berase l ++ eraseStr infx ++ berase r ∧
      lastCharD w = (if r.needs_bracketing then some ')' else lastCharD r) := by
  obtain ⟨L, hL, hLnb, hL1, hL2, hLe, hLc⟩ := char_Bracket (c := l) tw ia hl1 hl2
  obtain ⟨R, hR, hRnb, hR1, hR2, hRe, hRc⟩ := char_Bracket (c := r) tw ia hr1 hr2
  by_cases hcond : infx.length + L.width + R.width < tw ∧
      L.v.length = 1 ∧ R.v.length = 1
  · obtain ⟨ls, hLs⟩ := List.length_eq_one.mp hcond.2.1
    obtain ⟨rs, hRs⟩ := List.length_eq_one.mp hcond.2.2
    have hlsl : lastLineD L = ls := by rw [lastLineD, hLs]; rfl
    have hrsl : lastLineD R = rs := by rw [lastLineD, hRs]; rfl
    have hrsne : rs ≠ [] := by rw [← hrsl]; exact hR2
    refine ⟨⟨[ls ++ infx ++ rs], true⟩, ?_, rfl, by simp, ?_, ?_, ?_⟩
    · simp only [WrapBinary, hL, hR, Option.bind_eq_bind, Option.some_bind]
      rw [if_pos hcond, hLs, hRs]
      rfl
    · show (ls ++ infx) ++ rs ≠ []
      simp [List.append_eq_nil, hrsne]
    · show eraseStr ((ls ++ infx) ++ rs) ++ [] = _
      rw [eraseStr_append, eraseStr_append, ← hLe, ← hRe, eraseVal_eq_lines,
        eraseVal_eq_lines, hLs, hRs, eraseLines_single, eraseLines_single]
      simp [List.append_assoc]
    · show ((ls ++ infx) ++ rs).getLast? = _
      rw [getLast?_append_right _ hrsne, ← hrsl, ← lastCharD, hRc]
  · have hLv := appendLast_eq infx hL1
    set rv : Value := if ir then IndentValue R ia [] else R with hrv
    have hrvne : rv.v ≠ [] := by
      rw [hrv]
      cases ir with
      | true => simpa using IndentValue_ne ia [] hR1
      | false => simpa using hR1
    have hrvlast : lastD rv.v ≠ [] ∧ (lastD rv.v).getLast? = lastCharD R := by
      rw [hrv]
      cases ir with
      | true =>
        constructor
        · simpa using IndentValue_lastD_ne ia [] hR1 hR2
        · simpa using IndentValue_lastChar ia [] hR1 hR2
      | false => exact ⟨hR2, rfl⟩
    have hrverase : eraseLines rv.v = eraseVal R := by
      rw [hrv]
      cases ir with
      | true => simpa using IndentValue_erase ia [] hR1
      | false => rfl
    have hLe2 : eraseLines L.v = berase l := hLe
    refine ⟨⟨(L.v.dropLast ++ [lastD L.v ++ infx]) ++ rv.v, true⟩, ?_, rfl,
      by simp, ?_, ?_, ?_⟩
    · simp only [WrapBinary, hL, hR, Option.bind_eq_bind, Option.some_bind]
      rw [if_neg hcond]
      simp [hLv, hrv]
    · show lastD _ ≠ []
      rw [lastD_append _ hrvne]
      exact hrvlast.1
    · show eraseLines _ = _
      rw [eraseLines_append, hrverase, appendLast_erase hLv, hLe2, hRe]
    · show (lastD _).getLast? = _
      rw [lastD_append _ hrvne, hrvlast.2, hRc]

theorem eraseStr_joinComma (ps : List Str) :
    eraseStr (joinComma ps) = joinCommaE (ps.map eraseStr) := by
  induction ps with
  | nil => rfl
  | cons p t ih =>
    cases t with
    | nil => rfl
    | cons q rest =>
      show eraseStr ((p ++ ", ".data) ++ joinComma (q :: rest)) = _
      rw [eraseStr_append, eraseStr_append, ih]
      show (eraseStr p ++ [',']) ++ _ = _
      simp [joinCommaE]

theorem joinComma_ne : ∀ {ps : List Str}, ps ≠ [] → lastD ps ≠ [] →
    joinComma ps ≠ [] := by
  intro ps
  induction ps with
  | nil => intro h; exact absurd rfl h
  | cons p t ih =>
    intro _ hlast
    cases t with
    | nil => simpa [joinComma, lastD] using hlast
    | cons q rest =>
      have ht : q :: rest ≠ [] := by simp
      have := ih ht (by rwa [lastD_cons_of_ne p ht] at hlast)
      show (p ++ ", ".data) ++ joinComma (q :: rest) ≠ []
      simp [List.append_eq_nil, this]

theorem joinComma_getLast? : ∀ {ps : List Str}, ps ≠ [] → lastD ps ≠ [] →
    (joinComma ps).getLast? = (lastD ps).getLast? := by
  intro ps
  induction ps with
  | nil => intro h; exact absurd rfl h
  | cons p t ih =>
    intro _ hlast
    cases t with
    | nil => rfl
    | cons q rest =>
      have ht : q :: rest ≠ [] := by simp
      have hlast' : lastD (q :: rest) ≠ [] := by
        rwa [lastD_cons_of_ne p ht] at hlast
      show ((p ++ ", ".data) ++ joinComma (q :: rest)).getLast? = _
      rw [getLast?_append_right _ (joinComma_ne ht hlast'), ih ht hlast',
        lastD_cons_of_ne p ht]

theorem headsOf_eq : ∀ {args : List Value}, (∀ a ∈ args, a.v ≠ []) →
    headsOf args = some (args.map (fun a => a.v.headD [])) := by
  intro args
  induction args with
  | nil => intro; rfl
  | cons a t ih =>
    intro h
    have ha : a.v ≠ [] := h a (by simp)
    have hh : a.v.head? = some (a.v.headD []) := by
      cases hv : a.v with
      | nil => exact absurd hv ha
      | cons s r => rfl
    have hrec := ih (fun b hb => h b (by simp [hb]))
    simp only [headsOf, hh, hrec, Option.bind_eq_bind, Option.some_bind,
      List.map_cons]

theorem good_single {a : Value} (hlen : ¬1 < a.v.length) (hne : a.v ≠ []) :
    a.v = [a.v.headD []] := by
  cases hv : a.v with
  | nil => exact absurd hv hne
  | cons s r =>
    cases r with
    | nil => rfl
    | cons b t => rw [hv] at hlen; simp at hlen

theorem vlastD_cons_of_ne (x : Value) {l : List Value} (h : l ≠ []) :
    vlastD (x :: l) = vlastD l := by
  cases l with
  | nil => exact absurd rfl h
  | cons b t => rfl

theorem vlastD_mem : ∀ {l : List Value}, l ≠ [] → vlastD l ∈ l := by
  intro l
  induction l with
  | nil => intro h; exact absurd rfl h
  | cons a t ih =>
    intro _
    cases t with
    | nil => simp [vlastD]
    | cons b t2 =>
      rw [vlastD_cons_of_ne a (by simp)]
      exact List.mem_cons_of_mem a (ih (by simp))

theorem lastD_map_val (f : Value → Str) :
    ∀ {args : List Value}, args ≠ [] →
      lastD (args.map f) = f (vlastD args) := by
  intro args
  induction args with
  | nil => intro h; exact absurd rfl h
  | cons a t ih =>
    intro _
    cases t with
    | nil => rfl
    | cons b t2 =>
      have ht : b :: t2 ≠ [] := by simp
      rw [List.map_cons, lastD_cons_of_ne _ (by simp), ih ht,
        vlastD_cons_of_ne a ht]

theorem char_naryLines (ia : Nat) (iwn : Bool) (pre : Str) :
    ∀ (isFirst : Bool) (a : Value) (rest : List Value),
      (∀ x ∈ a :: rest, x.v ≠ [] ∧ lastLineD x ≠ []) →
      ∃ L, naryLines ia iwn pre isFirst (a :: rest) = some L ∧
        eraseLines L = (if isFirst && iwn then eraseStr pre else []) ++
          joinCommaE ((a :: rest).map eraseVal) ∧
        L ≠ [] ∧ lastD L ≠ [] ∧
        (lastD L).getLast? = lastCharD (vlastD (a :: rest)) ∧
        L.length = ((a :: rest).map (fun x => x.v.length)).sum := by
  intro isFirst a rest
  induction rest generalizing isFirst a with
  | nil =>
    intro h
    obtain ⟨ha1, ha2⟩ := h a (by simp)
    refine ⟨(IndentValue a (if iwn then pre.length else ia)
        (if isFirst && iwn then pre else [])).v, ?_, ?_, ?_, ?_, ?_, ?_⟩
    · simp [naryLines]
    · rw [IndentValue_erase _ _ ha1]
      have : eraseStr (if isFirst && iwn then pre else []) =
          (if isFirst && iwn then eraseStr pre else []) := by
        by_cases hb : isFirst && iwn
        · rw [if_pos hb, if_pos hb]
        · rw [if_neg hb, if_neg hb]; rfl
      rw [this]
      rfl
    · exact IndentValue_ne _ _ ha1
    · exact IndentValue_lastD_ne _ _ ha1 ha2
    · rw [IndentValue_lastChar _ _ ha1 ha2]; rfl
    · simp [IndentValue_length]
  | cons b t ih =>
    intro h
    obtain ⟨ha1, ha2⟩ := h a (by simp)
    have hiv1 := @IndentValue_ne a (if iwn then pre.length else ia)
      (if isFirst && iwn then pre else []) ha1
    obtain ⟨ls1, hls1⟩ : ∃ x, appendLast (IndentValue a
        (if iwn then pre.length else ia)
        (if isFirst && iwn then pre else [])).v [','] = some x :=
      ⟨_, appendLast_eq [','] hiv1⟩
    obtain ⟨L2, hL2, hL2e, hL2ne, hL2last, hL2char, hL2len⟩ :=
      ih false b (fun x hx => h x (by simp [hx]))
    refine ⟨ls1 ++ L2, ?_, ?_, ?_, ?_, ?_, ?_⟩
    · show naryLines ia iwn pre isFirst (a :: b :: t) = some (ls1 ++ L2)
      rw [naryLines, if_neg (by simp : ¬((b :: t).isEmpty = true)), hls1, hL2]
      simp
    · rw [eraseLines_append, appendLast_erase hls1, hL2e,
        IndentValue_erase _ _ ha1]
      have heq : eraseStr (if isFirst && iwn then pre else []) =
          (if isFirst && iwn then eraseStr pre else []) := by
        by_cases hb : isFirst && iwn
        · rw [if_pos hb, if_pos hb]
        · rw [if_neg hb, if_neg hb]; rfl
      rw [heq]
      show _ = _ ++ joinCommaE (eraseVal a :: eraseVal b :: t.map eraseVal)
      rw [joinCommaE]
      simp [eraseStr, List.append_assoc]
    · simp [List.append_eq_nil, hL2ne]
    · rw [lastD_append _ hL2ne]; exact hL2last
    · rw [lastD_append _ hL2ne, hL2char, vlastD_cons_of_ne a (by simp)]
    · rw [List.length_append, appendLast_length hls1, IndentValue_length,
        hL2len]
      simp

theorem naryLines_length (ia : Nat) (iwn : Bool) (pre : Str) :
    ∀ (isFirst : Bool) (args : List Value) (L : List Str),
      naryLines ia iwn pre isFirst args = some L →
      L.length = (args.map (fun x => x.v.length)).sum := by
  intro isFirst args
  induction args generalizing isFirst with
  | nil =>
    intro L h
    rw [naryLines] at h
    cases h
    rfl
  | cons a t ih =>
    intro L h
    cases t with
    | nil =>
      rw [naryLines, if_pos (by simp : (([] : List Value).isEmpty = true)),
        naryLines] at h
      simp only [Option.bind_eq_bind, Option.some_bind] at h
      cases h
      simp [IndentValue_length]
    | cons b t2 =>
      rw [naryLines, if_neg (by simp : ¬((b :: t2).isEmpty = true))] at h
      simp only [Option.bind_eq_bind, Option.bind_eq_some] at h
      obtain ⟨ls, hls, more, hmore, hLeq⟩ := h
      have hL' : L = ls ++ more := by
        simpa using hLeq.symm
      rw [hL', List.length_append, appendLast_length hls,
        IndentValue_length, ih false more hmore]
      simp

theorem char_WrapNAry {args : List Value} (tw ia : Nat) (pre post : Str)
    (hpre : pre ≠ []) (hall : ∀ a ∈ args, a.v ≠ [] ∧ lastLineD a ≠ []) :
    ∃ w, WrapNAry tw ia args pre post = some w ∧
      w.needs_bracketing = false ∧ w.v ≠ [] ∧ lastLineD w ≠ [] ∧
      eraseVal w = eraseStr pre ++ joinCommaE (args.map eraseVal) ++
        eraseStr post ∧
      lastCharD w = (if post = [] then
          (if args = [] then pre.getLast? else lastCharD (vlastD args))
        else post.getLast?) := by
  by_cases hcond : (args.any (fun a => 1 < a.v.length)) = false ∧
      ((args.map Value.width).sum + pre.length + post.length < tw ∨ args = [])
  · have hne : ∀ a ∈ args, a.v ≠ [] := fun a ha => (hall a ha).1
    have hsingle : ∀ a ∈ args, a.v = [a.v.headD []] := by
      intro a ha
      have hno : ¬(1 < a.v.length) := by
        intro hgt
        have hany : (args.any (fun x => 1 < x.v.length)) = true :=
          List.any_eq_true.mpr ⟨a, ha, by simpa using hgt⟩
        rw [hcond.1] at hany
        exact absurd hany (by simp)
      exact good_single hno (hne a ha)
    have hheads := headsOf_eq hne
    have hlastline : ∀ a ∈ args, lastLineD a = a.v.headD [] := by
      intro a ha
      rw [lastLineD, hsingle a ha]
      rfl
    refine ⟨⟨[(pre ++ joinComma (args.map (fun a => a.v.headD []))) ++ post],
      false⟩, ?_, rfl, by simp, ?_, ?_, ?_⟩
    · simp only [WrapNAry]
      rw [if_pos hcond]
      simp [hheads]
    · show (pre ++ _) ++ post ≠ []
      simp [List.append_eq_nil, hpre]
    · show eraseStr ((pre ++ _) ++ post) ++ [] = _
      rw [eraseStr_append, eraseStr_append, eraseStr_joinComma,
        List.map_map]
      have hmapeq : args.map (eraseStr ∘ fun a => a.v.headD []) =
          args.map eraseVal := by
        apply List.map_congr_left
        intro a ha
        show eraseStr (a.v.headD []) = eraseVal a
        conv_rhs => rw [eraseVal_eq_lines, hsingle a ha, eraseLines_single]
      rw [hmapeq]
      simp [List.append_assoc]
    · show ((pre ++ joinComma _) ++ post).getLast? = _
      by_cases hp : post = []
      · subst hp
        rw [if_pos rfl, List.append_nil]
        cases hargs : args with
        | nil => simp [joinComma]
        | cons a t =>
          rw [if_neg (by simp)]
          have hane : args ≠ [] := by rw [hargs]; simp
          have hlmap : lastD (args.map (fun a => a.v.headD [])) =
              (vlastD args).v.headD [] := lastD_map_val _ hane
          have hvmem := vlastD_mem hane
          have hvlast : lastD (args.map (fun a => a.v.headD [])) ≠ [] := by
            rw [hlmap, ← hlastline _ hvmem]
            exact (hall _ hvmem).2
          have hjne : args.map (fun a => a.v.headD []) ≠ [] := by
            rw [hargs]; simp
          rw [← hargs, getLast?_append_right pre
              (joinComma_ne hjne hvlast),
            joinComma_getLast? hjne hvlast, hlmap, ← hlastline _ hvmem]
          rfl
      · rw [if_neg hp, getLast?_append_right _ hp]
  · have hmulti : args ≠ [] := by
      intro he
      subst he
      exact hcond ⟨by simp, Or.inr rfl⟩
    obtain ⟨a, rest, hargs⟩ : ∃ a rest, args = a :: rest := by
      cases args with
      | nil => exact absurd rfl hmulti
      | cons a t => exact ⟨a, t, rfl⟩
    subst hargs
    cases hiw : decide ((((a :: rest).map Value.width).foldl max 0) +
        pre.length < tw) with
    | true =>
      obtain ⟨L, hL, hLe, hLne, hLlast, hLchar, hLlen⟩ :=
        char_naryLines ia true pre true a rest hall
      have happ := appendLast_eq post hLne
      refine ⟨⟨L.dropLast ++ [lastD L ++ post], false⟩, ?_, rfl, by simp,
        ?_, ?_, ?_⟩
      · simp only [WrapNAry]
        rw [if_neg hcond, hiw, hL]
        simp [happ]
      · show lastD _ ≠ []
        rw [lastD_concat]
        simp [List.append_eq_nil, hLlast]
      · show eraseLines _ = _
        rw [appendLast_erase happ, hLe]
        simp
      · show (lastD _).getLast? = _
        rw [lastD_concat]
        by_cases hp : post = []
        · subst hp
          rw [if_pos rfl, if_neg (by simp), List.append_nil]
          exact hLchar
        · rw [if_neg hp, getLast?_append_right _ hp]
    | false =>
      obtain ⟨L, hL, hLe, hLne, hLlast, hLchar, hLlen⟩ :=
        char_naryLines ia false pre true a rest hall
      have hls2ne : (pre :: L) ≠ [] := by simp
      have happ := appendLast_eq post hls2ne
      have hld : lastD (pre :: L) = lastD L := lastD_cons_of_ne pre hLne
      refine ⟨⟨(pre :: L).dropLast ++ [lastD (pre :: L) ++ post], false⟩, ?_,
        rfl, by simp, ?_, ?_, ?_⟩
      · simp only [WrapNAry]
        rw [if_neg hcond, hiw, hL]
        simp [happ]
      · show lastD _ ≠ []
        rw [lastD_concat, hld]
        simp [List.append_eq_nil, hLlast]
      · show eraseLines _ = _
        rw [appendLast_erase happ, eraseLines_cons, hLe]
        simp [List.append_assoc]
      · show (lastD _).getLast? = _
        rw [lastD_concat, hld]
        by_cases hp : post = []
        · subst hp
          rw [if_pos rfl, if_neg (by simp), List.append_nil]
          exact hLchar
        · rw [if_neg hp, getLast?_append_right _ hp]

theorem termLine_ne (s : Str) : termLine s ≠ [] := by
  rw [termLine]
  by_cases h : s.getLast? = some '\x7d'
  · rw [if_pos h]
    intro he
    subst he
    simp at h
  · rw [if_neg h]
    simp

theorem termLine_ends (s : Str) :
    (termLine s).getLast? = some ';' ∨ (termLine s).getLast? = some '\x7d' := by
  rw [termLine]
  by_cases h : s.getLast? = some '\x7d'
  · rw [if_pos h]
    exact Or.inr h
  · rw [if_neg h]
    exact Or.inl (List.getLast?_concat _)

theorem termLine_erase (s : Str) :
    eraseStr (termLine s) =
      eraseStr s ++ (if s.getLast? = some '\x7d' then [] else [';']) := by
  rw [termLine]
  by_cases h : s.getLast? = some '\x7d'
  · rw [if_pos h, if_pos h]
    simp
  · rw [if_neg h, if_neg h, eraseStr_append]
    rfl

theorem terminated_ne (a : Value) : terminated a ≠ [] := by
  rw [terminated]
  simp

theorem terminated_lastD (a : Value) :
    lastD (terminated a) = termLine (lastLineD a) := lastD_concat _ _

theorem terminated_erase (a : Value) (h1 : a.v ≠ []) :
    eraseLines (terminated a) =
      eraseVal a ++ (if lastCharD a = some '\x7d' then [] else [';']) := by
  rw [terminated, eraseLines_append, eraseLines_single, termLine_erase]
  rw [eraseVal_eq_lines]
  conv_rhs => rw [← dropLast_append_lastD h1, eraseLines_append,
    eraseLines_single]
  rw [lastCharD, List.append_assoc]
  rfl

theorem statementsLines_eq : ∀ {args : List Value},
    (∀ a ∈ args, a.v ≠ [] ∧ lastLineD a ≠ []) →
    statementsLines args = some ((args.map terminated).flatten) := by
  intro args
  induction args with
  | nil => intro; rfl
  | cons a t ih =>
    intro h
    obtain ⟨ha1, ha2⟩ := h a (by simp)
    have hg : a.v.getLast? = some (lastLineD a) := getLast?_eq_lastD ha1
    obtain ⟨c, hc⟩ : ∃ c, (lastLineD a).getLast? = some c :=
      Option.isSome_iff_exists.mp (List.getLast?_isSome.mpr ha2)
    have hrec := ih (fun x hx => h x (by simp [hx]))
    show statementsLines (a :: t) = _
    rw [statementsLines]
    split
    next heq => rw [hg] at heq; exact absurd heq (by simp)
    next s heq =>
      rw [hg] at heq
      obtain rfl : lastLineD a = s := Option.some_inj.mp heq
      split
      next heq2 => rw [hc] at heq2; exact absurd heq2 (by simp)
      next c2 heq2 =>
        rw [hrec]
        have hterm : (if c2 = '\x7d' then lastLineD a else lastLineD a ++ [';'])
            = termLine (lastLineD a) := by
          rw [termLine]
          by_cases hcc : c2 = '\x7d'
          · rw [if_pos hcc, if_pos (by rw [heq2, hcc])]
          · rw [if_neg hcc, if_neg (by rw [heq2]; simpa using hcc)]
        show some ((a.v.dropLast ++
            [if c2 = '\x7d' then lastLineD a else lastLineD a ++ [';']]) ++ _)
            = _
        rw [hterm]
        rfl

theorem statementsLines_some_good : ∀ {args : List Value} {L : List Str},
    statementsLines args = some L →
    ∀ a ∈ args, a.v ≠ [] ∧ lastLineD a ≠ [] := by
  intro args
  induction args with
  | nil => intro L _ a ha; simp at ha
  | cons b t ih =>
    intro L h a ha
    rw [statementsLines] at h
    split at h
    next heq => exact absurd h (by simp)
    next s heq =>
      split at h
      next heq2 => exact absurd h (by simp)
      next c heq2 =>
        have hb1 : b.v ≠ [] := by
          intro he
          rw [he] at heq
          simp at heq
        have hbl : lastLineD b = s := by
          have hg2 := getLast?_eq_lastD hb1
          rw [hg2] at heq
          exact Option.some_inj.mp heq
        have hb2 : lastLineD b ≠ [] := by
          rw [hbl]
          intro he
          rw [he] at heq2
          simp at heq2
        rcases List.mem_cons.mp ha with rfl | hmem
        · exact ⟨hb1, hb2⟩
        · obtain ⟨L2, hL2, -⟩ := Option.map_eq_some.mp h
          exact ih hL2 a hmem

theorem statements_flatten_facts : ∀ {args : List Value}, args ≠ [] →
    (args.map terminated).flatten ≠ [] ∧
    lastD ((args.map terminated).flatten) =
      termLine (lastLineD (vlastD args)) := by
  intro args
  induction args with
  | nil => intro h; exact absurd rfl h
  | cons a t ih =>
    intro _
    cases t with
    | nil =>
      constructor
      · simp [terminated_ne a]
      · show lastD (terminated a ++ []) = _
        rw [List.append_nil, terminated_lastD]
        rfl
    | cons b t2 =>
      obtain ⟨ihne, ihlast⟩ := ih (by simp)
      constructor
      · show terminated a ++ (List.map terminated (b :: t2)).flatten ≠ []
        intro he
        exact ihne (List.append_eq_nil.mp he).2
      · show lastD (terminated a ++ _) = _
        rw [lastD_append _ ihne, ihlast, vlastD_cons_of_ne a (by simp)]

theorem lsSuffix_ne (info : LSInfo) : lsSuffix info ≠ [] := by
  rw [lsSuffix]
  by_cases h : info.access ≠ []
  · rw [if_pos h]; simp
  · rw [if_neg h]; simp

theorem char_LoadStore {val : Value} (tw ia : Nat) (info : LSInfo)
    (h1 : val.v ≠ []) (h2 : lastLineD val ≠ []) :
    ∃ w, LoadStore tw ia val info = some w ∧
      w.needs_bracketing = false ∧ w.v ≠ [] ∧ lastLineD w ≠ [] ∧
      eraseVal w = berase val ++ eraseStr (lsSuffix info) ∧
      lastCharD w = (lsSuffix info).getLast? := by
  obtain ⟨B, hB, hBnb, hB1, hB2, hBe, hBc⟩ := char_Bracket (c := val) tw ia h1 h2
  have happ := appendLast_eq (lsSuffix info) hB1
  refine ⟨⟨B.v.dropLast ++ [lastD B.v ++ lsSuffix info], B.needs_bracketing⟩,
    ?_, hBnb, by simp, ?_, ?_, ?_⟩
  · rw [LoadStore, hB]
    simp [happ]
  · show lastD _ ≠ []
    rw [lastD_concat]
    simp [List.append_eq_nil, lsSuffix_ne info]
  · show eraseLines _ = _
    rw [appendLast_erase happ]
    rw [show eraseLines B.v = berase val from hBe]
  · show (lastD _).getLast? = _
    rw [lastD_concat, getLast?_append_right _ (lsSuffix_ne info)]

theorem char_BlockVal (ia : Nat) (val : Value) (header : Str)
    (h1 : val.v ≠ []) :
    (BlockVal ia val header).v ≠ [] ∧
    lastLineD (BlockVal ia val header) = "\x7d".data ∧
    (BlockVal ia val header).needs_bracketing = val.needs_bracketing ∧
    eraseVal (BlockVal ia val header) =
      eraseStr header ++ eraseVal val ++ ['\x7d'] ∧
    lastCharD (BlockVal ia val header) = some '\x7d' := by
  have hne : (IndentValue val ia []).v ++ ["\x7d".data] ≠ [] := by simp
  have hlast : lastLineD (BlockVal ia val header) = "\x7d".data := by
    show lastD (header :: ((IndentValue val ia []).v ++ ["\x7d".data])) = _
    rw [lastD_cons_of_ne _ hne, lastD_concat]
  refine ⟨by simp [BlockVal], hlast, rfl, ?_, ?_⟩
  · show eraseLines (header :: ((IndentValue val ia []).v ++ ["\x7d".data])) = _
    rw [eraseLines_cons, eraseLines_append, eraseLines_single,
      IndentValue_erase _ _ h1]
    show eraseStr header ++ (([] ++ eraseVal val) ++ eraseStr "\x7d".data) = _
    simp [List.append_assoc, eraseStr]
  · rw [lastCharD, hlast]
    rfl

theorem char_SetVar {child : Value} (tw ia : Nat) (name : Str)
    (h1 : child.v ≠ []) (h2 : lastLineD child ≠ []) :
    ∃ w, SetVar tw ia child name = some w ∧
      w.needs_bracketing = true ∧ w.v ≠ [] ∧ lastLineD w ≠ [] ∧
      eraseVal w = eraseStr (name ++ " = ".data) ++ eraseVal child ∧
      lastCharD w = lastCharD child := by
  obtain ⟨w, hw, hnb, hne, hl, he, hc⟩ :=
    char_WrapChild (c := ⟨child.v, true⟩) tw ia (name ++ " = ".data) [] h1 h2
  refine ⟨w, hw, by rw [hnb], hne, hl, ?_, ?_⟩
  · rw [he]
    show _ = eraseStr (name ++ " = ".data) ++ eraseVal ⟨child.v, true⟩
    simp [eraseStr]
  · rw [hc, if_pos rfl]
    rfl

theorem char_renderIf {ifs thenp : Value} {elsep : Option Value} (tw ia : Nat)
    (hc1 : ifs.v ≠ []) (hc2 : lastLineD ifs ≠ [])
    (ht1 : thenp.v ≠ []) (ht2 : lastLineD thenp ≠ [])
    (hel : ∀ e, elsep = some e → e.v ≠ [] ∧ lastLineD e ≠ []) :
    ∃ w, renderIf tw ia ifs thenp elsep = some w ∧ w.v ≠ [] ∧
      lastLineD w ≠ [] := by
  cases elsep with
  | none =>
    simp only [renderIf]
    split
    · cases hv : ifs.v with
      | nil => exact absurd hv hc1
      | cons c0 crest =>
        obtain ⟨iv, hiv⟩ : ∃ x, appendLast (("if (".data ++ c0) :: crest)
            ") \x7b".data = some x := ⟨_, appendLast_eq _ (by simp)⟩
        refine ⟨⟨(iv ++ (IndentValue thenp ia []).v ++ []) ++ ["\x7d".data],
          ifs.needs_bracketing⟩, ?_, by simp, ?_⟩
        · simp only [hiv, Option.bind_eq_bind, Option.some_bind]
        · show lastD _ ≠ []
          rw [lastD_concat]
          simp
    · next hcond =>
      have hA : ¬1 < ifs.v.length := fun hh => hcond (Or.inl hh)
      have hB : ¬1 < thenp.v.length := fun hh => hcond (Or.inr (Or.inl hh))
      cases hv : ifs.v with
      | nil => exact absurd hv hc1
      | cons c0 cr =>
        cases cr with
        | cons d dr => exact absurd (by rw [hv]; simp) hA
        | nil =>
          cases hv2 : thenp.v with
          | nil => exact absurd hv2 ht1
          | cons t0 tr =>
            cases tr with
            | cons d dr => exact absurd (by rw [hv2]; simp) hB
            | nil =>
              refine ⟨⟨["if (".data ++ c0 ++ ") \x7b ".data ++ t0 ++
                " \x7d".data], false⟩, rfl, by simp, by simp [lastLineD, lastD]⟩
  | some e =>
    simp only [renderIf]
    split
    · cases hv : ifs.v with
      | nil => exact absurd hv hc1
      | cons c0 crest =>
        obtain ⟨iv, hiv⟩ : ∃ x, appendLast (("if (".data ++ c0) :: crest)
            ") \x7b".data = some x := ⟨_, appendLast_eq _ (by simp)⟩
        refine ⟨⟨(iv ++ (IndentValue thenp ia []).v ++
          ("\x7d else \x7b".data :: (IndentValue e ia []).v)) ++ ["\x7d".data],
          ifs.needs_bracketing⟩, ?_, by simp, ?_⟩
        · simp only [hiv, Option.bind_eq_bind, Option.some_bind]
        · show lastD _ ≠ []
          rw [lastD_concat]
          simp
    · next hcond =>
      have hA : ¬1 < ifs.v.length := fun hh => hcond (Or.inl hh)
      have hB : ¬1 < thenp.v.length := fun hh => hcond (Or.inr (Or.inl hh))
      have hC : ¬1 < e.v.length := fun hh =>
        hcond (Or.inr (Or.inr (Or.inl hh)))
      obtain ⟨he1, he2⟩ := hel e rfl
      cases hv : ifs.v with
      | nil => exact absurd hv hc1
      | cons c0 cr =>
        cases cr with
        | cons d dr => exact absurd (by rw [hv]; simp) hA
        | nil =>
          cases hv2 : thenp.v with
          | nil => exact absurd hv2 ht1
          | cons t0 tr =>
            cases tr with
            | cons d dr => exact absurd (by rw [hv2]; simp) hB
            | nil =>
              cases hv3 : e.v with
              | nil => exact absurd hv3 he1
              | cons e0 er =>
                cases er with
                | cons d dr => exact absurd (by rw [hv3]; simp) hC
                | nil =>
                  refine ⟨⟨[("if (".data ++ c0 ++ ") \x7b ".data ++ t0 ++
                    " \x7d".data) ++ " else \x7b ".data ++ e0 ++ " \x7d".data],
                    false⟩, rfl, by simp, by simp [lastLineD, lastD]⟩

theorem append_ne_of_left {α : Type} {a b : List α} (h : a ≠ []) :
    a ++ b ≠ [] := by
  intro he
  exact h (List.append_eq_nil.mp he).1

theorem append_ne_of_right {α : Type} {a b : List α} (h : b ≠ []) :
    a ++ b ≠ [] := by
  intro he
  exact h (List.append_eq_nil.mp he).2

theorem good_singleline {s : Str} (h : s ≠ []) (nb : Bool) :
    (⟨[s], nb⟩ : Value).v ≠ [] ∧ lastLineD ⟨[s], nb⟩ ≠ [] :=
  ⟨by simp, by simpa [lastLineD, lastD] using h⟩

theorem flushDecls_ne (s c : Nat) : flushDecls s c ≠ [] := by
  rw [flushDecls]
  intro h
  have h2 := (List.append_eq_nil.mp h).1
  have h3 := (List.append_eq_nil.mp h2).1
  exact absurd h3 (by decide)

theorem decompileList_cons_shape {tw ia : Nat} {x : Node} {xs : List Node}
    {vs : List Value} (h : DecompileList tw ia (x :: xs) = some vs) :
    ∃ v vrest, DecompileExpr tw ia x = some v ∧
      DecompileList tw ia xs = some vrest ∧ vs = v :: vrest := by
  rw [DecompileList] at h
  cases hx : DecompileExpr tw ia x with
  | none => rw [hx] at h; simp at h
  | some v =>
    rw [hx] at h
    cases hxs : DecompileList tw ia xs with
    | none => rw [hxs] at h; simp at h
    | some vrest =>
      rw [hxs] at h
      simp only [Option.bind_eq_bind, Option.some_bind, Option.some_inj] at h
      exact ⟨v, vrest, rfl, rfl, h.symm⟩

/-! ### On well-formed input, every rendering succeeds and is good -/

mutual

theorem wf_good : ∀ (tw ia : Nat) (n : Node), wfNode n = true →
    ∃ v, DecompileExpr tw ia n = some v ∧ v.v ≠ [] ∧ lastLineD v ≠ []
  | tw, ia, .flushToVars s c cs, h => by
    rw [wfNode] at h
    obtain ⟨vs, hvs, hgood, -⟩ := wf_good_list tw ia cs h
    obtain ⟨w, hw, -, hwne, hwlast, -, -⟩ :=
      @char_WrapNAry vs tw ia (flushDecls s c) [] (flushDecls_ne s c)
        hgood
    refine ⟨w, ?_, hwne, hwlast⟩
    simp only [DecompileExpr, hvs, Option.bind_eq_bind, Option.some_bind]
    exact hw
  | tw, ia, .flushedVar s, h => by
    refine ⟨⟨[TempVarName s], false⟩, by simp [DecompileExpr], ?_, ?_⟩
    · exact (good_singleline (tempVarName_ne s) false).1
    · exact (good_singleline (tempVarName_ne s) false).2
  | tw, ia, .statements cs, h => by
    rw [wfNode, Bool.and_eq_true] at h
    obtain ⟨hne, hwf⟩ := h
    have hcs : cs ≠ [] := by simpa using hne
    obtain ⟨vs, hvs, hgood, hlen⟩ := wf_good_list tw ia cs hwf
    have hvsne : vs ≠ [] := by
      intro he
      rw [he] at hlen
      exact hcs (List.length_eq_zero.mp hlen.symm)
    obtain ⟨hfne, hflast⟩ := statements_flatten_facts hvsne
    refine ⟨⟨(vs.map terminated).flatten, false⟩, ?_, hfne, ?_⟩
    · simp only [DecompileExpr, hvs, Option.bind_eq_bind, Option.some_bind,
        statementsLines_eq hgood]
    · show lastD _ ≠ []
      rw [hflast]
      exact termLine_ne _
  | tw, ia, .endReturn cs, h => by
    rw [wfNode] at h
    obtain ⟨vs, hvs, hgood, -⟩ := wf_good_list tw ia cs h
    obtain ⟨w, hw, -, hwne, hwlast, -, -⟩ :=
      @char_WrapNAry vs tw ia "return ".data [] (by decide) hgood
    refine ⟨w, ?_, hwne, hwlast⟩
    simp only [DecompileExpr, hvs, Option.bind_eq_bind, Option.some_bind]
    exact hw
  | tw, ia, .decl ld, h => by
    have hne : "var ".data ++ ld ≠ [] := append_ne_of_left (by decide)
    exact ⟨⟨["var ".data ++ ld], false⟩, by simp [DecompileExpr],
      (good_singleline hne false).1, (good_singleline hne false).2⟩
  | tw, ia, .declInit ld c, h => by
    rw [wfNode] at h
    obtain ⟨v1, hv1, h11, h12⟩ := wf_good tw ia c h
    obtain ⟨w, hw, -, hwne, hwlast, -, -⟩ :=
      char_WrapChild (c := v1) tw ia ("var ".data ++ ld ++ " = ".data) []
        h11 h12
    refine ⟨w, ?_, hwne, hwlast⟩
    simp only [DecompileExpr, hv1, Option.bind_eq_bind, Option.some_bind]
    exact hw
  | tw, ia, .constI32 u, h => by
    exact ⟨⟨[istr (int32OfBits u)], false⟩, by simp [DecompileExpr],
      (good_singleline (istr_ne _) false).1,
      (good_singleline (istr_ne _) false).2⟩
  | tw, ia, .constI64 u, h => by
    have hne : istr (int64OfBits u) ++ ['L'] ≠ [] := by simp
    exact ⟨⟨[istr (int64OfBits u) ++ ['L']], false⟩, by simp [DecompileExpr],
      (good_singleline hne false).1, (good_singleline hne false).2⟩
  | tw, ia, .constF32 s, h => by
    have hne : to_string_trimmed s ++ ['f'] ≠ [] := by simp
    exact ⟨⟨[to_string_trimmed s ++ ['f']], false⟩, by simp [DecompileExpr],
      (good_singleline hne false).1, (good_singleline hne false).2⟩
  | tw, ia, .constF64 s, h => by
    rw [wfNode] at h
    have hs : s ≠ [] := by simpa using h
    have hne := to_string_trimmed_ne hs
    exact ⟨⟨[to_string_trimmed s], false⟩, by simp [DecompileExpr],
      (good_singleline hne false).1, (good_singleline hne false).2⟩
  | tw, ia, .constV128, h => by
    exact ⟨⟨["V128".data], false⟩, by simp [DecompileExpr],
      (good_singleline (by decide) false).1,
      (good_singleline (by decide) false).2⟩
  | tw, ia, .localGet name, h => by
    rw [wfNode] at h
    have hne : name ≠ [] := by simpa using h
    exact ⟨⟨[name], false⟩, by simp [DecompileExpr],
      (good_singleline hne false).1, (good_singleline hne false).2⟩
  | tw, ia, .globalGet name, h => by
    rw [wfNode] at h
    have hne : name ≠ [] := by simpa using h
    exact ⟨⟨[name], false⟩, by simp [DecompileExpr],
      (good_singleline hne false).1, (good_singleline hne false).2⟩
  | tw, ia, .localSet name c, h => by
    rw [wfNode] at h
    obtain ⟨v1, hv1, h11, h12⟩ := wf_good tw ia c h
    obtain ⟨w, hw, -, hwne, hwlast, -, -⟩ :=
      @char_SetVar v1 tw ia name h11 h12
    refine ⟨w, ?_, hwne, hwlast⟩
    simp only [DecompileExpr, hv1, Option.bind_eq_bind, Option.some_bind]
    exact hw
  | tw, ia, .globalSet name c, h => by
    rw [wfNode] at h
    obtain ⟨v1, hv1, h11, h12⟩ := wf_good tw ia c h
    obtain ⟨w, hw, -, hwne, hwlast, -, -⟩ :=
      @char_SetVar v1 tw ia name h11 h12
    refine ⟨w, ?_, hwne, hwlast⟩
    simp only [DecompileExpr, hv1, Option.bind_eq_bind, Option.some_bind]
    exact hw
  | tw, ia, .localTee name cs, h => by
    rw [wfNode, Bool.and_eq_true] at h
    obtain ⟨hor, hwf⟩ := h
    obtain ⟨vs, hvs, hgood, hlen⟩ := wf_good_list tw ia cs hwf
    cases hcs : vs with
    | nil =>
      have hcse : cs = [] := by
        rw [hcs] at hlen
        exact (List.length_eq_zero.mp hlen.symm)
      have hname : name ≠ [] := by
        rw [hcse] at hor
        simpa using hor
      refine ⟨⟨[name], false⟩, ?_, (good_singleline hname false).1,
        (good_singleline hname false).2⟩
      simp only [DecompileExpr, hvs, hcs, Option.bind_eq_bind,
        Option.some_bind]
    | cons a rest =>
      have ha := hgood a (by rw [hcs]; simp)
      obtain ⟨w, hw, -, hwne, hwlast, -, -⟩ :=
        @char_SetVar a tw ia name ha.1 ha.2
      refine ⟨w, ?_, hwne, hwlast⟩
      simp only [DecompileExpr, hvs, hcs, Option.bind_eq_bind,
        Option.some_bind]
      exact hw
  | tw, ia, .binary op l r, h => by
    rw [wfNode, Bool.and_eq_true] at h
    obtain ⟨v1, hv1, h11, h12⟩ := wf_good tw ia l h.1
    obtain ⟨v2, hv2, h21, h22⟩ := wf_good tw ia r h.2
    obtain ⟨w, hw, -, hwne, hwlast, -, -⟩ :=
      char_WrapBinary (l := v1) (r := v2) tw ia
        (' ' :: OpcodeToToken op ++ [' ']) false h11 h12 h21 h22
    refine ⟨w, ?_, hwne, hwlast⟩
    simp only [DecompileExpr, hv1, hv2, Option.bind_eq_bind, Option.some_bind]
    exact hw
  | tw, ia, .compare op l r, h => by
    rw [wfNode, Bool.and_eq_true] at h
    obtain ⟨v1, hv1, h11, h12⟩ := wf_good tw ia l h.1
    obtain ⟨v2, hv2, h21, h22⟩ := wf_good tw ia r h.2
    obtain ⟨w, hw, -, hwne, hwlast, -, -⟩ :=
      char_WrapBinary (l := v1) (r := v2) tw ia
        (' ' :: OpcodeToToken op ++ [' ']) false h11 h12 h21 h22
    refine ⟨w, ?_, hwne, hwlast⟩
    simp only [DecompileExpr, hv1, hv2, Option.bind_eq_bind, Option.some_bind]
    exact hw
  | tw, ia, .unary op c, h => by
    rw [wfNode] at h
    obtain ⟨v1, hv1, h11, h12⟩ := wf_good tw ia c h
    obtain ⟨w, hw, -, hwne, hwlast, -, -⟩ :=
      char_WrapChild (c := v1) tw ia (OpcodeToToken op ++ ['(']) [')'] h11 h12
    refine ⟨w, ?_, hwne, hwlast⟩
    simp only [DecompileExpr, hv1, Option.bind_eq_bind, Option.some_bind]
    exact hw
  | tw, ia, .load info addr, h => by
    rw [wfNode] at h
    obtain ⟨v1, hv1, h11, h12⟩ := wf_good tw ia addr h
    obtain ⟨w, hw, -, hwne, hwlast, -, -⟩ :=
      @char_LoadStore v1 tw ia info h11 h12
    refine ⟨w, ?_, hwne, hwlast⟩
    simp only [DecompileExpr, hv1, Option.bind_eq_bind, Option.some_bind]
    exact hw
  | tw, ia, .store info addr value, h => by
    rw [wfNode, Bool.and_eq_true] at h
    obtain ⟨v1, hv1, h11, h12⟩ := wf_good tw ia addr h.1
    obtain ⟨v2, hv2, h21, h22⟩ := wf_good tw ia value h.2
    obtain ⟨w1, hw1, -, hw1ne, hw1last, -, -⟩ :=
      @char_LoadStore v1 tw ia info h11 h12
    obtain ⟨w, hw, -, hwne, hwlast, -, -⟩ :=
      char_WrapBinary (l := w1) (r := v2) tw ia " = ".data true
        hw1ne hw1last h21 h22
    refine ⟨w, ?_, hwne, hwlast⟩
    simp only [DecompileExpr, hv1, hv2, hw1, Option.bind_eq_bind,
      Option.some_bind]
    exact hw
  | tw, ia, .ifThen c t, h => by
    rw [wfNode, Bool.and_eq_true] at h
    obtain ⟨v1, hv1, h11, h12⟩ := wf_good tw ia c h.1
    obtain ⟨v2, hv2, h21, h22⟩ := wf_good tw ia t h.2
    obtain ⟨w, hw, hwne, hwlast⟩ :=
      @char_renderIf v1 v2 (none) tw ia
        h11 h12 h21 h22 (fun e he => by cases he)
    refine ⟨w, ?_, hwne, hwlast⟩
    simp only [DecompileExpr, hv1, hv2, Option.bind_eq_bind, Option.some_bind]
    exact hw
  | tw, ia, .ifElse c t e, h => by
    rw [wfNode, Bool.and_eq_true] at h
    obtain ⟨h1, h23⟩ := h
    rw [Bool.and_eq_true] at h23
    obtain ⟨v1, hv1, h11, h12⟩ := wf_good tw ia c h1
    obtain ⟨v2, hv2, h21, h22⟩ := wf_good tw ia t h23.1
    obtain ⟨v3, hv3, h31, h32⟩ := wf_good tw ia e h23.2
    obtain ⟨w, hw, hwne, hwlast⟩ :=
      @char_renderIf v1 v2 (some v3) tw ia
        h11 h12 h21 h22
        (fun x hx => by cases hx; exact ⟨h31, h32⟩)
    refine ⟨w, ?_, hwne, hwlast⟩
    simp only [DecompileExpr, hv1, hv2, hv3, Option.bind_eq_bind,
      Option.some_bind]
    exact hw
  | tw, ia, .blockNode label body, h => by
    rw [wfNode] at h
    obtain ⟨v1, hv1, h11, h12⟩ := wf_good tw ia body h
    obtain ⟨hbne, hblast, -, -, -⟩ := char_BlockVal ia v1
      ("block ".data ++ label ++ " \x7b".data) h11
    refine ⟨BlockVal ia v1 ("block ".data ++ label ++ " \x7b".data), ?_,
      hbne, by rw [hblast]; simp⟩
    simp only [DecompileExpr, hv1, Option.bind_eq_bind, Option.some_bind]
  | tw, ia, .loopNode label body, h => by
    rw [wfNode] at h
    obtain ⟨v1, hv1, h11, h12⟩ := wf_good tw ia body h
    obtain ⟨hbne, hblast, -, -, -⟩ := char_BlockVal ia v1
      ("loop ".data ++ label ++ " \x7b".data) h11
    refine ⟨BlockVal ia v1 ("loop ".data ++ label ++ " \x7b".data), ?_,
      hbne, by rw [hblast]; simp⟩
    simp only [DecompileExpr, hv1, Option.bind_eq_bind, Option.some_bind]
  | tw, ia, .br isLoop label, h => by
    have hne : (if isLoop then "continue ".data else "break ".data) ++
        label ≠ [] := by
      cases isLoop with
      | true => exact append_ne_of_left (by decide)
      | false => exact append_ne_of_left (by decide)
    exact ⟨⟨[(if isLoop then "continue ".data else "break ".data) ++ label],
      false⟩, by simp [DecompileExpr],
      (good_singleline hne false).1, (good_singleline hne false).2⟩
  | tw, ia, .brIf isLoop label c, h => by
    rw [wfNode] at h
    obtain ⟨v1, hv1, h11, h12⟩ := wf_good tw ia c h
    obtain ⟨w, hw, -, hwne, hwlast, -, -⟩ :=
      char_WrapChild (c := v1) tw ia "if (".data
        (") ".data ++ (if isLoop then "continue".data else "break".data) ++
         ' ' :: label) h11 h12
    refine ⟨w, ?_, hwne, hwlast⟩
    simp only [DecompileExpr, hv1, Option.bind_eq_bind, Option.some_bind]
    exact hw
  | tw, ia, .ret cs, h => by
    rw [wfNode] at h
    obtain ⟨vs, hvs, hgood, -⟩ := wf_good_list tw ia cs h
    obtain ⟨w, hw, -, hwne, hwlast, -, -⟩ :=
      @char_WrapNAry vs tw ia "return ".data [] (by decide) hgood
    refine ⟨w, ?_, hwne, hwlast⟩
    simp only [DecompileExpr, hvs, Option.bind_eq_bind, Option.some_bind]
    exact hw
  | tw, ia, .dropNode c, h => by
    rw [wfNode] at h
    obtain ⟨v1, hv1, h11, h12⟩ := wf_good tw ia c h
    exact ⟨v1, by simp only [DecompileExpr]; exact hv1, h11, h12⟩
  | tw, ia, .callLike name cs, h => by
    rw [wfNode] at h
    obtain ⟨vs, hvs, hgood, -⟩ := wf_good_list tw ia cs h
    obtain ⟨w, hw, -, hwne, hwlast, -, -⟩ :=
      @char_WrapNAry vs tw ia (name ++ ['(']) [')'] (by simp) hgood
    refine ⟨w, ?_, hwne, hwlast⟩
    simp only [DecompileExpr, hvs, Option.bind_eq_bind, Option.some_bind]
    exact hw

theorem wf_good_list : ∀ (tw ia : Nat) (ns : List Node), wfList ns = true →
    ∃ vs, DecompileList tw ia ns = some vs ∧
      (∀ a ∈ vs, a.v ≠ [] ∧ lastLineD a ≠ []) ∧ vs.length = ns.length
  | tw, ia, [], _ => ⟨[], rfl, by simp, rfl⟩
  | tw, ia, n :: rest, h => by
    rw [wfList, Bool.and_eq_true] at h
    obtain ⟨v, hv, h1, h2⟩ := wf_good tw ia n h.1
    obtain ⟨vs, hvs, hgood, hlen⟩ := wf_good_list tw ia rest h.2
    refine ⟨v :: vs, ?_, ?_, by simp [hlen]⟩
    · simp only [DecompileList, hv, hvs, Option.bind_eq_bind,
        Option.some_bind]
    · intro a ha
      rcases List.mem_cons.mp ha with rfl | hmem
      · exact ⟨h1, h2⟩
      · exact hgood a hmem

end

/-! ### Width independence: transfer lemmas -/

theorem goodR_refl {v : Value} (h1 : v.v ≠ []) (h2 : lastLineD v ≠ []) :
    GoodR v v := ⟨⟨h1, h2⟩, ⟨h1, h2⟩, rfl, rfl, rfl⟩

theorem berase_congr {a b : Value} (he : eraseVal a = eraseVal b)
    (hnb : a.needs_bracketing = b.needs_bracketing) : berase a = berase b := by
  rw [berase, berase, he, hnb]

theorem goodR_WrapChild {c1 c2 : Value} (tw1 tw2 ia : Nat) (pre post : Str)
    (h : GoodR c1 c2) :
    ∃ w1 w2, WrapChild tw1 ia c1 pre post = some w1 ∧
      WrapChild tw2 ia c2 pre post = some w2 ∧ GoodR w1 w2 := by
  obtain ⟨⟨h11, h12⟩, ⟨h21, h22⟩, he, hnb, hc⟩ := h
  obtain ⟨w1, hw1, hnb1, hne1, hl1, he1, hc1⟩ :=
    char_WrapChild (c := c1) tw1 ia pre post h11 h12
  obtain ⟨w2, hw2, hnb2, hne2, hl2, he2, hc2⟩ :=
    char_WrapChild (c := c2) tw2 ia pre post h21 h22
  refine ⟨w1, w2, hw1, hw2, ⟨hne1, hl1⟩, ⟨hne2, hl2⟩, ?_, ?_, ?_⟩
  · rw [he1, he2, he]
  · rw [hnb1, hnb2, hnb]
  · rw [hc1, hc2, hc]

theorem goodR_Bracket {c1 c2 : Value} (tw1 tw2 ia : Nat) (h : GoodR c1 c2) :
    ∃ w1 w2, BracketIfNeeded tw1 ia c1 = some w1 ∧
      BracketIfNeeded tw2 ia c2 = some w2 ∧ GoodR w1 w2 := by
  obtain ⟨⟨h11, h12⟩, ⟨h21, h22⟩, he, hnb, hc⟩ := h
  obtain ⟨w1, hw1, hnb1, hne1, hl1, he1, hc1⟩ :=
    char_Bracket (c := c1) tw1 ia h11 h12
  obtain ⟨w2, hw2, hnb2, hne2, hl2, he2, hc2⟩ :=
    char_Bracket (c := c2) tw2 ia h21 h22
  refine ⟨w1, w2, hw1, hw2, ⟨hne1, hl1⟩, ⟨hne2, hl2⟩, ?_, ?_, ?_⟩
  · rw [he1, he2]
    exact berase_congr he hnb
  · rw [hnb1, hnb2]
  · rw [hc1, hc2, hc, hnb]

theorem goodR_WrapBinary {l1 l2 r1 r2 : Value} (tw1 tw2 ia : Nat)
    (infx : Str) (ir : Bool) (hl : GoodR l1 l2) (hr : GoodR r1 r2) :
    ∃ w1 w2, WrapBinary tw1 ia l1 r1 infx ir = some w1 ∧
      WrapBinary tw2 ia l2 r2 infx ir = some w2 ∧ GoodR w1 w2 := by
  obtain ⟨⟨hl11, hl12⟩, ⟨hl21, hl22⟩, hle, hlnb, hlc⟩ := hl
  obtain ⟨⟨hr11, hr12⟩, ⟨hr21, hr22⟩, hre, hrnb, hrc⟩ := hr
  obtain ⟨w1, hw1, hnb1, hne1, hll1, he1, hc1⟩ :=
    char_WrapBinary (l := l1) (r := r1) tw1 ia infx ir hl11 hl12 hr11 hr12
  obtain ⟨w2, hw2, hnb2, hne2, hll2, he2, hc2⟩ :=
    char_WrapBinary (l := l2) (r := r2) tw2 ia infx ir hl21 hl22 hr21 hr22
  refine ⟨w1, w2, hw1, hw2, ⟨hne1, hll1⟩, ⟨hne2, hll2⟩, ?_, ?_, ?_⟩
  · rw [he1, he2, berase_congr hle hlnb, berase_congr hre hrnb]
  · rw [hnb1, hnb2]
  · rw [hc1, hc2, hrc, hrnb]

theorem goodR_SetVar {c1 c2 : Value} (tw1 tw2 ia : Nat) (name : Str)
    (h : GoodR c1 c2) :
    ∃ w1 w2, SetVar tw1 ia c1 name = some w1 ∧
      SetVar tw2 ia c2 name = some w2 ∧ GoodR w1 w2 := by
  obtain ⟨⟨h11, h12⟩, ⟨h21, h22⟩, he, hnb, hc⟩ := h
  obtain ⟨w1, hw1, hnb1, hne1, hl1, he1, hc1⟩ :=
    @char_SetVar c1 tw1 ia name h11 h12
  obtain ⟨w2, hw2, hnb2, hne2, hl2, he2, hc2⟩ :=
    @char_SetVar c2 tw2 ia name h21 h22
  refine ⟨w1, w2, hw1, hw2, ⟨hne1, hl1⟩, ⟨hne2, hl2⟩, ?_, ?_, ?_⟩
  · rw [he1, he2, he]
  · rw [hnb1, hnb2]
  · rw [hc1, hc2, hc]

theorem goodR_LoadStore {c1 c2 : Value} (tw1 tw2 ia : Nat) (info : LSInfo)
    (h : GoodR c1 c2) :
    ∃ w1 w2, LoadStore tw1 ia c1 info = some w1 ∧
      LoadStore tw2 ia c2 info = some w2 ∧ GoodR w1 w2 := by
  obtain ⟨⟨h11, h12⟩, ⟨h21, h22⟩, he, hnb, hc⟩ := h
  obtain ⟨w1, hw1, hnb1, hne1, hl1, he1, hc1⟩ :=
    @char_LoadStore c1 tw1 ia info h11 h12
  obtain ⟨w2, hw2, hnb2, hne2, hl2, he2, hc2⟩ :=
    @char_LoadStore c2 tw2 ia info h21 h22
  refine ⟨w1, w2, hw1, hw2, ⟨hne1, hl1⟩, ⟨hne2, hl2⟩, ?_, ?_, ?_⟩
  · rw [he1, he2, berase_congr he hnb]
  · rw [hnb1, hnb2]
  · rw [hc1, hc2]

theorem goodR_BlockVal {c1 c2 : Value} (ia : Nat) (header : Str)
    (h : GoodR c1 c2) :
    GoodR (BlockVal ia c1 header) (BlockVal ia c2 header) := by
  obtain ⟨⟨h11, h12⟩, ⟨h21, h22⟩, he, hnb, hc⟩ := h
  obtain ⟨hne1, hl1, hnb1, he1, hc1⟩ := char_BlockVal ia c1 header h11
  obtain ⟨hne2, hl2, hnb2, he2, hc2⟩ := char_BlockVal ia c2 header h21
  refine ⟨⟨hne1, by rw [hl1]; simp⟩, ⟨hne2, by rw [hl2]; simp⟩, ?_, ?_, ?_⟩
  · rw [he1, he2, he]
  · rw [hnb1, hnb2, hnb]
  · rw [hc1, hc2]

theorem forall₂_goodR_left {l1 l2 : List Value}
    (h : List.Forall₂ GoodR l1 l2) :
    ∀ a ∈ l1, a.v ≠ [] ∧ lastLineD a ≠ [] := by
  induction h with
  | nil => intro a ha; simp at ha
  | cons hab htl ih =>
    intro a ha
    rcases List.mem_cons.mp ha with rfl | hmem
    · exact hab.1
    · exact ih a hmem

theorem forall₂_goodR_right {l1 l2 : List Value}
    (h : List.Forall₂ GoodR l1 l2) :
    ∀ a ∈ l2, a.v ≠ [] ∧ lastLineD a ≠ [] := by
  induction h with
  | nil => intro a ha; simp at ha
  | cons hab htl ih =>
    intro a ha
    rcases List.mem_cons.mp ha with rfl | hmem
    · exact hab.2.1
    · exact ih a hmem

theorem forall₂_goodR_erase {l1 l2 : List Value}
    (h : List.Forall₂ GoodR l1 l2) :
    l1.map eraseVal = l2.map eraseVal := by
  induction h with
  | nil => rfl
  | cons hab htl ih => simp [ih, hab.2.2.1]

theorem forall₂_goodR_vlast {l1 l2 : List Value}
    (h : List.Forall₂ GoodR l1 l2) (hne : l1 ≠ []) :
    lastCharD (vlastD l1) = lastCharD (vlastD l2) := by
  induction h with
  | nil => exact absurd rfl hne
  | @cons a b t1 t2 hab htl ih =>
    cases t1 with
    | nil =>
      cases htl
      exact hab.2.2.2.2
    | cons c t1' =>
      have ht2 : t2 ≠ [] := by
        intro he
        subst he
        cases htl
      obtain ⟨-, -, -⟩ : True ∧ True ∧ True := ⟨trivial, trivial, trivial⟩
      rw [vlastD_cons_of_ne a (by simp), vlastD_cons_of_ne b ht2]
      exact ih (by simp)

theorem goodR_WrapNAry {vs1 vs2 : List Value} (tw1 tw2 ia : Nat)
    (pre post : Str) (hpre : pre ≠ [])
    (h : List.Forall₂ GoodR vs1 vs2) :
    ∃ w1 w2, WrapNAry tw1 ia vs1 pre post = some w1 ∧
      WrapNAry tw2 ia vs2 pre post = some w2 ∧ GoodR w1 w2 := by
  obtain ⟨w1, hw1, hnb1, hne1, hl1, he1, hc1⟩ :=
    @char_WrapNAry vs1 tw1 ia pre post hpre (forall₂_goodR_left h)
  obtain ⟨w2, hw2, hnb2, hne2, hl2, he2, hc2⟩ :=
    @char_WrapNAry vs2 tw2 ia pre post hpre (forall₂_goodR_right h)
  have hlen := List.Forall₂.length_eq h
  have hemp : (vs1 = []) ↔ (vs2 = []) := by
    constructor
    · intro he; subst he; cases h; rfl
    · intro he
      subst he
      cases h
      rfl
  refine ⟨w1, w2, hw1, hw2, ⟨hne1, hl1⟩, ⟨hne2, hl2⟩, ?_, ?_, ?_⟩
  · rw [he1, he2, forall₂_goodR_erase h]
  · rw [hnb1, hnb2]
  · rw [hc1, hc2]
    by_cases hp : post = []
    · rw [if_pos hp, if_pos hp]
      by_cases hv : vs1 = []
      · rw [if_pos hv, if_pos (hemp.mp hv)]
      · rw [if_neg hv, if_neg (fun hx => hv (hemp.mpr hx)),
          forall₂_goodR_vlast h hv]
    · rw [if_neg hp, if_neg hp]

theorem termLine_getLast? (s : Str) :
    (termLine s).getLast? =
      (if s.getLast? = some '\x7d' then some '\x7d' else some ';') := by
  rw [termLine]
  by_cases hg : s.getLast? = some '\x7d'
  · rw [if_pos hg, if_pos hg, hg]
  · rw [if_neg hg, if_neg hg]
    exact List.getLast?_concat _

theorem eraseLines_flatten (ps : List (List Str)) :
    eraseLines ps.flatten = (ps.map eraseLines).flatten := by
  induction ps with
  | nil => rfl
  | cons p t ih => simp [eraseLines_append, ih]

theorem forall₂_goodR_terminated_erase {l1 l2 : List Value}
    (h : List.Forall₂ GoodR l1 l2) :
    l1.map (eraseLines ∘ terminated) = l2.map (eraseLines ∘ terminated) := by
  induction h with
  | nil => rfl
  | @cons a b t1 t2 hab htl ih =>
    simp only [List.map_cons]
    rw [ih]
    have hhd : eraseLines (terminated a) = eraseLines (terminated b) := by
      rw [terminated_erase _ hab.1.1, terminated_erase _ hab.2.1.1,
        hab.2.2.1, hab.2.2.2.2]
    show eraseLines (terminated a) :: _ = eraseLines (terminated b) :: _
    rw [hhd]

theorem goodR_statements {vs1 vs2 : List Value}
    (h : List.Forall₂ GoodR vs1 vs2) (hne : vs1 ≠ []) :
    ∃ L1 L2, statementsLines vs1 = some L1 ∧ statementsLines vs2 = some L2 ∧
      GoodR ⟨L1, false⟩ ⟨L2, false⟩ := by
  have hg1 := forall₂_goodR_left h
  have hg2 := forall₂_goodR_right h
  have hne2 : vs2 ≠ [] := by
    intro he
    subst he
    cases h
    exact hne rfl
  obtain ⟨hf1, hl1⟩ := statements_flatten_facts hne
  obtain ⟨hf2, hl2⟩ := statements_flatten_facts hne2
  refine ⟨_, _, statementsLines_eq hg1, statementsLines_eq hg2,
    ⟨hf1, by show lastD _ ≠ []; rw [hl1]; exact termLine_ne _⟩,
    ⟨hf2, by show lastD _ ≠ []; rw [hl2]; exact termLine_ne _⟩, ?_, rfl, ?_⟩
  · show eraseLines _ = eraseLines _
    rw [eraseLines_flatten, eraseLines_flatten, List.map_map, List.map_map,
      forall₂_goodR_terminated_erase h]
  · show (lastD _).getLast? = (lastD _).getLast?
    rw [hl1, hl2, termLine_getLast?, termLine_getLast?]
    have := forall₂_goodR_vlast h hne
    rw [lastCharD, lastCharD] at this
    rw [this]

mutual

theorem widthIndep : ∀ (tw1 tw2 ia : Nat) (n : Node),
    wfNode n = true → ifFree n = true →
    ∃ v1 v2, DecompileExpr tw1 ia n = some v1 ∧
      DecompileExpr tw2 ia n = some v2 ∧ GoodR v1 v2
  | tw1, tw2, ia, .flushToVars s c cs, h, hf => by
    rw [wfNode] at h
    rw [ifFree] at hf
    obtain ⟨vs1, vs2, hvs1, hvs2, hr⟩ := widthIndep_list tw1 tw2 ia cs h hf
    obtain ⟨w1, w2, hw1, hw2, hgr⟩ :=
      goodR_WrapNAry tw1 tw2 ia (flushDecls s c) [] (flushDecls_ne s c) hr
    refine ⟨w1, w2, ?_, ?_, hgr⟩
    · simp only [DecompileExpr, hvs1, Option.bind_eq_bind, Option.some_bind]
      exact hw1
    · simp only [DecompileExpr, hvs2, Option.bind_eq_bind, Option.some_bind]
      exact hw2
  | tw1, tw2, ia, .flushedVar s, h, hf => by
    exact ⟨⟨[TempVarName s], false⟩, ⟨[TempVarName s], false⟩,
      by simp [DecompileExpr], by simp [DecompileExpr],
      goodR_refl (good_singleline (tempVarName_ne s) false).1
        (good_singleline (tempVarName_ne s) false).2⟩
  | tw1, tw2, ia, .statements cs, h, hf => by
    rw [wfNode, Bool.and_eq_true] at h
    rw [ifFree] at hf
    obtain ⟨hne, hwf⟩ := h
    have hcs : cs ≠ [] := by simpa using hne
    obtain ⟨vs1, vs2, hvs1, hvs2, hr⟩ := widthIndep_list tw1 tw2 ia cs hwf hf
    have hvs1ne : vs1 ≠ [] := by
      intro he
      subst he
      cases hcs2 : cs with
      | nil => exact hcs hcs2
      | cons x xs =>
        rw [hcs2] at hvs1
        obtain ⟨v, vrest, -, -, hshape⟩ := decompileList_cons_shape hvs1
        exact absurd hshape (by simp)
    obtain ⟨L1, L2, hL1, hL2, hgr⟩ := goodR_statements hr hvs1ne
    refine ⟨⟨L1, false⟩, ⟨L2, false⟩, ?_, ?_, hgr⟩
    · simp only [DecompileExpr, hvs1, Option.bind_eq_bind, Option.some_bind,
        hL1, Option.some_bind]
    · simp only [DecompileExpr, hvs2, Option.bind_eq_bind, Option.some_bind,
        hL2, Option.some_bind]
  | tw1, tw2, ia, .endReturn cs, h, hf => by
    rw [wfNode] at h
    rw [ifFree] at hf
    obtain ⟨vs1, vs2, hvs1, hvs2, hr⟩ := widthIndep_list tw1 tw2 ia cs h hf
    obtain ⟨w1, w2, hw1, hw2, hgr⟩ :=
      goodR_WrapNAry tw1 tw2 ia "return ".data [] (by decide) hr
    refine ⟨w1, w2, ?_, ?_, hgr⟩
    · simp only [DecompileExpr, hvs1, Option.bind_eq_bind, Option.some_bind]
      exact hw1
    · simp only [DecompileExpr, hvs2, Option.bind_eq_bind, Option.some_bind]
      exact hw2
  | tw1, tw2, ia, .decl ld, h, hf => by
    have hne : "var ".data ++ ld ≠ [] := append_ne_of_left (by decide)
    exact ⟨⟨["var ".data ++ ld], false⟩, ⟨["var ".data ++ ld], false⟩,
      by simp [DecompileExpr], by simp [DecompileExpr],
      goodR_refl (good_singleline hne false).1 (good_singleline hne false).2⟩
  | tw1, tw2, ia, .declInit ld c, h, hf => by
    rw [wfNode] at h
    rw [ifFree] at hf
    obtain ⟨v1, v2, hv1, hv2, hr⟩ := widthIndep tw1 tw2 ia c h hf
    obtain ⟨w1, w2, hw1, hw2, hgr⟩ :=
      goodR_WrapChild tw1 tw2 ia ("var ".data ++ ld ++ " = ".data) [] hr
    refine ⟨w1, w2, ?_, ?_, hgr⟩
    · simp only [DecompileExpr, hv1, Option.bind_eq_bind, Option.some_bind]
      exact hw1
    · simp only [DecompileExpr, hv2, Option.bind_eq_bind, Option.some_bind]
      exact hw2
  | tw1, tw2, ia, .constI32 u, h, hf => by
    exact ⟨⟨[istr (int32OfBits u)], false⟩, ⟨[istr (int32OfBits u)], false⟩,
      by simp [DecompileExpr], by simp [DecompileExpr],
      goodR_refl (good_singleline (istr_ne _) false).1
        (good_singleline (istr_ne _) false).2⟩
  | tw1, tw2, ia, .constI64 u, h, hf => by
    have hne : istr (int64OfBits u) ++ ['L'] ≠ [] := by simp
    exact ⟨⟨[istr (int64OfBits u) ++ ['L']], false⟩,
      ⟨[istr (int64OfBits u) ++ ['L']], false⟩,
      by simp [DecompileExpr], by simp [DecompileExpr],
      goodR_refl (good_singleline hne false).1 (good_singleline hne false).2⟩
  | tw1, tw2, ia, .constF32 s, h, hf => by
    have hne : to_string_trimmed s ++ ['f'] ≠ [] := by simp
    exact ⟨⟨[to_string_trimmed s ++ ['f']], false⟩,
      ⟨[to_string_trimmed s ++ ['f']], false⟩,
      by simp [DecompileExpr], by simp [DecompileExpr],
      goodR_refl (good_singleline hne false).1 (good_singleline hne false).2⟩
  | tw1, tw2, ia, .constF64 s, h, hf => by
    rw [wfNode] at h
    have hs : s ≠ [] := by simpa using h
    have hne := to_string_trimmed_ne hs
    exact ⟨⟨[to_string_trimmed s], false⟩, ⟨[to_string_trimmed s], false⟩,
      by simp [DecompileExpr], by simp [DecompileExpr],
      goodR_refl (good_singleline hne false).1 (good_singleline hne false).2⟩
  | tw1, tw2, ia, .constV128, h, hf => by
    exact ⟨⟨["V128".data], false⟩, ⟨["V128".data], false⟩,
      by simp [DecompileExpr], by simp [DecompileExpr],
      goodR_refl (good_singleline (by decide) false).1
        (good_singleline (by decide) false).2⟩
  | tw1, tw2, ia, .localGet name, h, hf => by
    rw [wfNode] at h
    have hne : name ≠ [] := by simpa using h
    exact ⟨⟨[name], false⟩, ⟨[name], false⟩,
      by simp [DecompileExpr], by simp [DecompileExpr],
      goodR_refl (good_singleline hne false).1 (good_singleline hne false).2⟩
  | tw1, tw2, ia, .globalGet name, h, hf => by
    rw [wfNode] at h
    have hne : name ≠ [] := by simpa using h
    exact ⟨⟨[name], false⟩, ⟨[name], false⟩,
      by simp [DecompileExpr], by simp [DecompileExpr],
      goodR_refl (good_singleline hne false).1 (good_singleline hne false).2⟩
  | tw1, tw2, ia, .localSet name c, h, hf => by
    rw [wfNode] at h
    rw [ifFree] at hf
    obtain ⟨v1, v2, hv1, hv2, hr⟩ := widthIndep tw1 tw2 ia c h hf
    obtain ⟨w1, w2, hw1, hw2, hgr⟩ := goodR_SetVar tw1 tw2 ia name hr
    refine ⟨w1, w2, ?_, ?_, hgr⟩
    · simp only [DecompileExpr, hv1, Option.bind_eq_bind, Option.some_bind]
      exact hw1
    · simp only [DecompileExpr, hv2, Option.bind_eq_bind, Option.some_bind]
      exact hw2
  | tw1, tw2, ia, .globalSet name c, h, hf => by
    rw [wfNode] at h
    rw [ifFree] at hf
    obtain ⟨v1, v2, hv1, hv2, hr⟩ := widthIndep tw1 tw2 ia c h hf
    obtain ⟨w1, w2, hw1, hw2, hgr⟩ := goodR_SetVar tw1 tw2 ia name hr
    refine ⟨w1, w2, ?_, ?_, hgr⟩
    · simp only [DecompileExpr, hv1, Option.bind_eq_bind, Option.some_bind]
      exact hw1
    · simp only [DecompileExpr, hv2, Option.bind_eq_bind, Option.some_bind]
      exact hw2
  | tw1, tw2, ia, .localTee name cs, h, hf => by
    rw [wfNode, Bool.and_eq_true] at h
    rw [ifFree] at hf
    obtain ⟨hor, hwf⟩ := h
    obtain ⟨vs1, vs2, hvs1, hvs2, hr⟩ := widthIndep_list tw1 tw2 ia cs hwf hf
    cases hr with
    | nil =>
      have hcse : cs = [] := by
        cases hcs2 : cs with
        | nil => rfl
        | cons x xs =>
          rw [hcs2] at hvs1
          obtain ⟨v, vrest, -, -, hshape⟩ := decompileList_cons_shape hvs1
          exact absurd hshape (by simp)
      have hname : name ≠ [] := by
        rw [hcse] at hor
        simpa using hor
      refine ⟨⟨[name], false⟩, ⟨[name], false⟩, ?_, ?_,
        goodR_refl (good_singleline hname false).1
          (good_singleline hname false).2⟩
      · simp only [DecompileExpr, hvs1, Option.bind_eq_bind, Option.some_bind]
      · simp only [DecompileExpr, hvs2, Option.bind_eq_bind, Option.some_bind]
    | @cons a b t1 t2 hab htl =>
      obtain ⟨w1, w2, hw1, hw2, hgr⟩ := goodR_SetVar tw1 tw2 ia name hab
      refine ⟨w1, w2, ?_, ?_, hgr⟩
      · simp only [DecompileExpr, hvs1, Option.bind_eq_bind, Option.some_bind]
        exact hw1
      · simp only [DecompileExpr, hvs2, Option.bind_eq_bind, Option.some_bind]
        exact hw2
  | tw1, tw2, ia, .binary op l r, h, hf => by
    rw [wfNode, Bool.and_eq_true] at h
    rw [ifFree, Bool.and_eq_true] at hf
    obtain ⟨v1, v2, hv1, hv2, hrl⟩ := widthIndep tw1 tw2 ia l h.1 hf.1
    obtain ⟨u1, u2, hu1, hu2, hrr⟩ := widthIndep tw1 tw2 ia r h.2 hf.2
    obtain ⟨w1, w2, hw1, hw2, hgr⟩ :=
      goodR_WrapBinary tw1 tw2 ia (' ' :: OpcodeToToken op ++ [' ']) false
        hrl hrr
    refine ⟨w1, w2, ?_, ?_, hgr⟩
    · simp only [DecompileExpr, hv1, hu1, Option.bind_eq_bind,
        Option.some_bind]
      exact hw1
    · simp only [DecompileExpr, hv2, hu2, Option.bind_eq_bind,
        Option.some_bind]
      exact hw2
  | tw1, tw2, ia, .compare op l r, h, hf => by
    rw [wfNode, Bool.and_eq_true] at h
    rw [ifFree, Bool.and_eq_true] at hf
    obtain ⟨v1, v2, hv1, hv2, hrl⟩ := widthIndep tw1 tw2 ia l h.1 hf.1
    obtain ⟨u1, u2, hu1, hu2, hrr⟩ := widthIndep tw1 tw2 ia r h.2 hf.2
    obtain ⟨w1, w2, hw1, hw2, hgr⟩ :=
      goodR_WrapBinary tw1 tw2 ia (' ' :: OpcodeToToken op ++ [' ']) false
        hrl hrr
    refine ⟨w1, w2, ?_, ?_, hgr⟩
    · simp only [DecompileExpr, hv1, hu1, Option.bind_eq_bind,
        Option.some_bind]
      exact hw1
    · simp only [DecompileExpr, hv2, hu2, Option.bind_eq_bind,
        Option.some_bind]
      exact hw2
  | tw1, tw2, ia, .unary op c, h, hf => by
    rw [wfNode] at h
    rw [ifFree] at hf
    obtain ⟨v1, v2, hv1, hv2, hr⟩ := widthIndep tw1 tw2 ia c h hf
    obtain ⟨w1, w2, hw1, hw2, hgr⟩ :=
      goodR_WrapChild tw1 tw2 ia (OpcodeToToken op ++ ['(']) [')'] hr
    refine ⟨w1, w2, ?_, ?_, hgr⟩
    · simp only [DecompileExpr, hv1, Option.bind_eq_bind, Option.some_bind]
      exact hw1
    · simp only [DecompileExpr, hv2, Option.bind_eq_bind, Option.some_bind]
      exact hw2
  | tw1, tw2, ia, .load info addr, h, hf => by
    rw [wfNode] at h
    rw [ifFree] at hf
    obtain ⟨v1, v2, hv1, hv2, hr⟩ := widthIndep tw1 tw2 ia addr h hf
    obtain ⟨w1, w2, hw1, hw2, hgr⟩ := goodR_LoadStore tw1 tw2 ia info hr
    refine ⟨w1, w2, ?_, ?_, hgr⟩
    · simp only [DecompileExpr, hv1, Option.bind_eq_bind, Option.some_bind]
      exact hw1
    · simp only [DecompileExpr, hv2, Option.bind_eq_bind, Option.some_bind]
      exact hw2
  | tw1, tw2, ia, .store info addr value, h, hf => by
    rw [wfNode, Bool.and_eq_true] at h
    rw [ifFree, Bool.and_eq_true] at hf
    obtain ⟨v1, v2, hv1, hv2, hra⟩ := widthIndep tw1 tw2 ia addr h.1 hf.1
    obtain ⟨u1, u2, hu1, hu2, hrv⟩ := widthIndep tw1 tw2 ia value h.2 hf.2
    obtain ⟨m1, m2, hm1, hm2, hrm⟩ := goodR_LoadStore tw1 tw2 ia info hra
    obtain ⟨w1, w2, hw1, hw2, hgr⟩ :=
      goodR_WrapBinary tw1 tw2 ia " = ".data true hrm hrv
    refine ⟨w1, w2, ?_, ?_, hgr⟩
    · simp only [DecompileExpr, hv1, hu1, hm1, Option.bind_eq_bind,
        Option.some_bind]
      exact hw1
    · simp only [DecompileExpr, hv2, hu2, hm2, Option.bind_eq_bind,
        Option.some_bind]
      exact hw2
  | tw1, tw2, ia, .ifThen c t, h, hf => by
    rw [ifFree] at hf
    exact absurd hf (by simp)
  | tw1, tw2, ia, .ifElse c t e, h, hf => by
    rw [ifFree] at hf
    exact absurd hf (by simp)
  | tw1, tw2, ia, .blockNode label body, h, hf => by
    rw [wfNode] at h
    rw [ifFree] at hf
    obtain ⟨v1, v2, hv1, hv2, hr⟩ := widthIndep tw1 tw2 ia body h hf
    refine ⟨BlockVal ia v1 ("block ".data ++ label ++ " \x7b".data),
      BlockVal ia v2 ("block ".data ++ label ++ " \x7b".data), ?_, ?_,
      goodR_BlockVal ia _ hr⟩
    · simp only [DecompileExpr, hv1, Option.bind_eq_bind, Option.some_bind]
    · simp only [DecompileExpr, hv2, Option.bind_eq_bind, Option.some_bind]
  | tw1, tw2, ia, .loopNode label body, h, hf => by
    rw [wfNode] at h
    rw [ifFree] at hf
    obtain ⟨v1, v2, hv1, hv2, hr⟩ := widthIndep tw1 tw2 ia body h hf
    refine ⟨BlockVal ia v1 ("loop ".data ++ label ++ " \x7b".data),
      BlockVal ia v2 ("loop ".data ++ label ++ " \x7b".data), ?_, ?_,
      goodR_BlockVal ia _ hr⟩
    · simp only [DecompileExpr, hv1, Option.bind_eq_bind, Option.some_bind]
    · simp only [DecompileExpr, hv2, Option.bind_eq_bind, Option.some_bind]
  | tw1, tw2, ia, .br isLoop label, h, hf => by
    have hne : (if isLoop then "continue ".data else "break ".data) ++
        label ≠ [] := by
      cases isLoop with
      | true => exact append_ne_of_left (by decide)
      | false => exact append_ne_of_left (by decide)
    exact ⟨⟨[(if isLoop then "continue ".data else "break ".data) ++ label],
      false⟩,
      ⟨[(if isLoop then "continue ".data else "break ".data) ++ label],
      false⟩, by simp [DecompileExpr], by simp [DecompileExpr],
      goodR_refl (good_singleline hne false).1 (good_singleline hne false).2⟩
  | tw1, tw2, ia, .brIf isLoop label c, h, hf => by
    rw [wfNode] at h
    rw [ifFree] at hf
    obtain ⟨v1, v2, hv1, hv2, hr⟩ := widthIndep tw1 tw2 ia c h hf
    obtain ⟨w1, w2, hw1, hw2, hgr⟩ :=
      goodR_WrapChild tw1 tw2 ia "if (".data
        (") ".data ++ (if isLoop then "continue".data else "break".data) ++
         ' ' :: label) hr
    refine ⟨w1, w2, ?_, ?_, hgr⟩
    · simp only [DecompileExpr, hv1, Option.bind_eq_bind, Option.some_bind]
      exact hw1
    · simp only [DecompileExpr, hv2, Option.bind_eq_bind, Option.some_bind]
      exact hw2
  | tw1, tw2, ia, .ret cs, h, hf => by
    rw [wfNode] at h
    rw [ifFree] at hf
    obtain ⟨vs1, vs2, hvs1, hvs2, hr⟩ := widthIndep_list tw1 tw2 ia cs h hf
    obtain ⟨w1, w2, hw1, hw2, hgr⟩ :=
      goodR_WrapNAry tw1 tw2 ia "return ".data [] (by decide) hr
    refine ⟨w1, w2, ?_, ?_, hgr⟩
    · simp only [DecompileExpr, hvs1, Option.bind_eq_bind, Option.some_bind]
      exact hw1
    · simp only [DecompileExpr, hvs2, Option.bind_eq_bind, Option.some_bind]
      exact hw2
  | tw1, tw2, ia, .dropNode c, h, hf => by
    rw [wfNode] at h
    rw [ifFree] at hf
    obtain ⟨v1, v2, hv1, hv2, hr⟩ := widthIndep tw1 tw2 ia c h hf
    exact ⟨v1, v2, by simp only [DecompileExpr]; exact hv1,
      by simp only [DecompileExpr]; exact hv2, hr⟩
  | tw1, tw2, ia, .callLike name cs, h, hf => by
    rw [wfNode] at h
    rw [ifFree] at hf
    obtain ⟨vs1, vs2, hvs1, hvs2, hr⟩ := widthIndep_list tw1 tw2 ia cs h hf
    obtain ⟨w1, w2, hw1, hw2, hgr⟩ :=
      goodR_WrapNAry tw1 tw2 ia (name ++ ['(']) [')'] (by simp) hr
    refine ⟨w1, w2, ?_, ?_, hgr⟩
    · simp only [DecompileExpr, hvs1, Option.bind_eq_bind, Option.some_bind]
      exact hw1
    · simp only [DecompileExpr, hvs2, Option.bind_eq_bind, Option.some_bind]
      exact hw2

theorem widthIndep_list : ∀ (tw1 tw2 ia : Nat) (ns : List Node),
    wfList ns = true → ifFreeList ns = true →
    ∃ vs1 vs2, DecompileList tw1 ia ns = some vs1 ∧
      DecompileList tw2 ia ns = some vs2 ∧ List.Forall₂ GoodR vs1 vs2
  | tw1, tw2, ia, [], _, _ => ⟨[], [], rfl, rfl, List.Forall₂.nil⟩
  | tw1, tw2, ia, n :: rest, h, hf => by
    rw [wfList, Bool.and_eq_true] at h
    rw [ifFreeList, Bool.and_eq_true] at hf
    obtain ⟨v1, v2, hv1, hv2, hr⟩ := widthIndep tw1 tw2 ia n h.1 hf.1
    obtain ⟨vs1, vs2, hvs1, hvs2, hrs⟩ :=
      widthIndep_list tw1 tw2 ia rest h.2 hf.2
    refine ⟨v1 :: vs1, v2 :: vs2, ?_, ?_, List.Forall₂.cons hr hrs⟩
    · simp only [DecompileList, hv1, hvs1, Option.bind_eq_bind,
        Option.some_bind]
    · simp only [DecompileList, hv2, hvs2, Option.bind_eq_bind,
        Option.some_bind]

end

/-! ### A successful rendering has at least one line, except for an empty
`Statements` node -/

theorem wrapChild_some_ne {tw ia : Nat} {c : Value} {pre post : Str} {w : Value}
    (h : WrapChild tw ia c pre post = some w) : w.v ≠ [] := by
  simp only [WrapChild] at h
  split at h
  · split at h
    next s heq =>
      cases h
      simp
    next heq =>
      obtain ⟨ls, hls, hw⟩ := Option.map_eq_some.mp h
      rw [← hw]
      exact appendLast_ne hls
  · obtain ⟨ls, hls, hw⟩ := Option.map_eq_some.mp h
    rw [← hw]
    exact appendLast_ne hls

theorem wrapBinary_some_ne {tw ia : Nat} {l r : Value} {infx : Str} {ir : Bool}
    {w : Value} (h : WrapBinary tw ia l r infx ir = some w) : w.v ≠ [] := by
  simp only [WrapBinary, Option.bind_eq_bind, Option.bind_eq_some] at h
  obtain ⟨left, -, h⟩ := h
  obtain ⟨right, -, h⟩ := h
  split at h
  · cases h
    simp
  · simp only [Option.bind_eq_some] at h
    obtain ⟨lv, hlv, h⟩ := h
    cases h
    show lv ++ _ ≠ []
    exact append_ne_of_left (appendLast_ne hlv)

theorem wrapNAry_some_ne {tw ia : Nat} {args : List Value} {pre post : Str}
    {w : Value} (h : WrapNAry tw ia args pre post = some w) : w.v ≠ [] := by
  simp only [WrapNAry] at h
  split at h
  · cases hh : headsOf args with
    | none => rw [hh] at h; exact absurd h (by simp)
    | some parts =>
      rw [hh] at h
      cases h
      simp
  · cases hh : naryLines ia
        (decide ((args.map Value.width).foldl max 0 + pre.length < tw))
        pre true args with
    | none => rw [hh] at h; exact absurd h (by simp)
    | some L =>
      rw [hh] at h
      simp only [Option.bind_eq_bind, Option.some_bind] at h
      cases hfin : appendLast
          (if decide ((args.map Value.width).foldl max 0 + pre.length < tw)
              = true then L else pre :: L) post with
      | none => rw [hfin] at h; exact absurd h (by simp)
      | some final =>
        rw [hfin] at h
        cases h
        exact appendLast_ne hfin

theorem loadStore_some_ne {tw ia : Nat} {val : Value} {info : LSInfo}
    {w : Value} (h : LoadStore tw ia val info = some w) : w.v ≠ [] := by
  simp only [LoadStore, Option.bind_eq_bind, Option.bind_eq_some] at h
  obtain ⟨b, -, h⟩ := h
  obtain ⟨ls, hls, hw⟩ := Option.map_eq_some.mp h
  rw [← hw]
  exact appendLast_ne hls

theorem setVar_some_ne {tw ia : Nat} {c : Value} {name : Str} {w : Value}
    (h : SetVar tw ia c name = some w) : w.v ≠ [] :=
  wrapChild_some_ne h

theorem renderIf_some_ne {tw ia : Nat} {ifs thenp : Value}
    {elsep : Option Value} {w : Value}
    (h : renderIf tw ia ifs thenp elsep = some w) : w.v ≠ [] := by
  simp only [renderIf] at h
  split at h
  · split at h
    · exact absurd h (by simp)
    · simp only [Option.bind_eq_bind, Option.bind_eq_some] at h
      obtain ⟨iv, -, h⟩ := h
      cases h
      simp
  · split at h
    next c0 t0 heq1 heq2 =>
      split at h
      · cases h
        simp
      next e =>
        split at h
        next e0 heq3 =>
          cases h
          simp
        next => exact absurd h (by simp)
    next => exact absurd h (by simp)

theorem statementsLines_cons_ne {a : Value} {rest : List Value} {L : List Str}
    (h : statementsLines (a :: rest) = some L) : L ≠ [] := by
  rw [statementsLines] at h
  split at h
  next => exact absurd h (by simp)
  next s heq =>
    split at h
    next => exact absurd h (by simp)
    next c heq2 =>
      obtain ⟨more, -, hL⟩ := Option.map_eq_some.mp h
      rw [← hL]
      simp

theorem decompile_some_ne : ∀ (tw ia : Nat) (n : Node) (v : Value),
    DecompileExpr tw ia n = some v → yieldsEmpty n = false → v.v ≠ []
  | tw, ia, .flushToVars s c cs, v, h, _ => by
    simp only [DecompileExpr, Option.bind_eq_bind, Option.bind_eq_some] at h
    obtain ⟨args, -, h⟩ := h
    exact wrapNAry_some_ne h
  | tw, ia, .flushedVar s, v, h, _ => by
    cases h
    simp
  | tw, ia, .statements cs, v, h, hy => by
    cases cs with
    | nil => rw [yieldsEmpty] at hy; exact absurd hy (by simp)
    | cons c rest =>
      simp only [DecompileExpr, Option.bind_eq_bind, Option.bind_eq_some] at h
      obtain ⟨args, hargs, h⟩ := h
      obtain ⟨L, hL, h⟩ := h
      cases h
      obtain ⟨v1, vrest, -, -, hshape⟩ := decompileList_cons_shape hargs
      subst hshape
      exact statementsLines_cons_ne hL
  | tw, ia, .endReturn cs, v, h, _ => by
    simp only [DecompileExpr, Option.bind_eq_bind, Option.bind_eq_some] at h
    obtain ⟨args, -, h⟩ := h
    exact wrapNAry_some_ne h
  | tw, ia, .decl ld, v, h, _ => by
    cases h
    simp
  | tw, ia, .declInit ld c, v, h, _ => by
    simp only [DecompileExpr, Option.bind_eq_bind, Option.bind_eq_some] at h
    obtain ⟨a, -, h⟩ := h
    exact wrapChild_some_ne h
  | tw, ia, .constI32 u, v, h, _ => by cases h; simp
  | tw, ia, .constI64 u, v, h, _ => by cases h; simp
  | tw, ia, .constF32 s, v, h, _ => by cases h; simp
  | tw, ia, .constF64 s, v, h, _ => by cases h; simp
  | tw, ia, .constV128, v, h, _ => by cases h; simp
  | tw, ia, .localGet name, v, h, _ => by cases h; simp
  | tw, ia, .globalGet name, v, h, _ => by cases h; simp
  | tw, ia, .localSet name c, v, h, _ => by
    simp only [DecompileExpr, Option.bind_eq_bind, Option.bind_eq_some] at h
    obtain ⟨a, -, h⟩ := h
    exact setVar_some_ne h
  | tw, ia, .globalSet name c, v, h, _ => by
    simp only [DecompileExpr, Option.bind_eq_bind, Option.bind_eq_some] at h
    obtain ⟨a, -, h⟩ := h
    exact setVar_some_ne h
  | tw, ia, .localTee name cs, v, h, _ => by
    simp only [DecompileExpr, Option.bind_eq_bind, Option.bind_eq_some] at h
    obtain ⟨args, -, h⟩ := h
    cases args with
    | nil => cases h; simp
    | cons a rest => exact setVar_some_ne h
  | tw, ia, .binary op l r, v, h, _ => by
    simp only [DecompileExpr, Option.bind_eq_bind, Option.bind_eq_some] at h
    obtain ⟨a, -, h⟩ := h
    obtain ⟨b, -, h⟩ := h
    exact wrapBinary_some_ne h
  | tw, ia, .compare op l r, v, h, _ => by
    simp only [DecompileExpr, Option.bind_eq_bind, Option.bind_eq_some] at h
    obtain ⟨a, -, h⟩ := h
    obtain ⟨b, -, h⟩ := h
    exact wrapBinary_some_ne h
  | tw, ia, .unary op c, v, h, _ => by
    simp only [DecompileExpr, Option.bind_eq_bind, Option.bind_eq_some] at h
    obtain ⟨a, -, h⟩ := h
    exact wrapChild_some_ne h
  | tw, ia, .load info addr, v, h, _ => by
    simp only [DecompileExpr, Option.bind_eq_bind, Option.bind_eq_some] at h
    obtain ⟨a, -, h⟩ := h
    exact loadStore_some_ne h
  | tw, ia, .store info addr value, v, h, _ => by
    simp only [DecompileExpr, Option.bind_eq_bind, Option.bind_eq_some] at h
    obtain ⟨a, -, h⟩ := h
    obtain ⟨b, -, h⟩ := h
    obtain ⟨m, -, h⟩ := h
    exact wrapBinary_some_ne h
  | tw, ia, .ifThen c t, v, h, _ => by
    simp only [DecompileExpr, Option.bind_eq_bind, Option.bind_eq_some] at h
    obtain ⟨a, -, h⟩ := h
    obtain ⟨b, -, h⟩ := h
    exact renderIf_some_ne h
  | tw, ia, .ifElse c t e, v, h, _ => by
    simp only [DecompileExpr, Option.bind_eq_bind, Option.bind_eq_some] at h
    obtain ⟨a, -, h⟩ := h
    obtain ⟨b, -, h⟩ := h
    obtain ⟨d, -, h⟩ := h
    exact renderIf_some_ne h
  | tw, ia, .blockNode label body, v, h, _ => by
    simp only [DecompileExpr, Option.bind_eq_bind, Option.bind_eq_some] at h
    obtain ⟨a, -, h⟩ := h
    cases h
    simp [BlockVal]
  | tw, ia, .loopNode label body, v, h, _ => by
    simp only [DecompileExpr, Option.bind_eq_bind, Option.bind_eq_some] at h
    obtain ⟨a, -, h⟩ := h
    cases h
    simp [BlockVal]
  | tw, ia, .br isLoop label, v, h, _ => by cases h; simp
  | tw, ia, .brIf isLoop label c, v, h, _ => by
    simp only [DecompileExpr, Option.bind_eq_bind, Option.bind_eq_some] at h
    obtain ⟨a, -, h⟩ := h
    exact wrapChild_some_ne h
  | tw, ia, .ret cs, v, h, _ => by
    simp only [DecompileExpr, Option.bind_eq_bind, Option.bind_eq_some] at h
    obtain ⟨args, -, h⟩ := h
    exact wrapNAry_some_ne h
  | tw, ia, .dropNode c, v, h, hy => by
    rw [yieldsEmpty] at hy
    exact decompile_some_ne tw ia c v (by rw [DecompileExpr] at h; exact h) hy
  | tw, ia, .callLike name cs, v, h, _ => by
    simp only [DecompileExpr, Option.bind_eq_bind, Option.bind_eq_some] at h
    obtain ⟨args, -, h⟩ := h
    exact wrapNAry_some_ne h

/-! ### Support for the BinaryToString claims -/

theorem binFold (bs : List Nat) : ∀ acc : Str,
    bs.foldl (fun s c =>
      if 32 ≤ c ∧ c ≤ 126 then s ++ [Char.ofNat c]
      else s ++ ['\\', hexDigit (c / 16), hexDigit (c % 16)]) acc =
    acc ++ (bs.map encByte).flatten := by
  induction bs with
  | nil => intro acc; simp
  | cons b t ih =>
    intro acc
    rw [List.foldl_cons, ih, List.map_cons, List.flatten_cons]
    by_cases hb : 32 ≤ b ∧ b ≤ 126
    · rw [if_pos hb, encByte, if_pos hb, List.append_assoc]
    · rw [if_neg hb, encByte, if_neg hb, List.append_assoc]

theorem binaryToString_eq (bs : List Nat) :
    BinaryToString bs = '\"' :: (bs.map encByte).flatten ++ ['\"'] := by
  rw [BinaryToString, binFold]
  rfl

theorem hexDigit_mem (n : Nat) : hexDigit n ∈ "0123456789abcdef".data := by
  rcases Nat.lt_or_ge n 16 with h | h
  · interval_cases n <;> decide
  · rw [hexDigit, List.getD_eq_default]
    · decide
    · simpa using h

theorem getLast?_ne_none {α : Type} {l : List α} (h : l ≠ []) :
    l.getLast? ≠ none := by
  rw [List.getLast?_eq_getLast l h]
  exact Option.noConfusion

theorem IndentValue_single_pre (a : Value) (a0 : Str) (pre : Str)
    (h : a.v = [a0]) : (IndentValue a pre.length pre).v = [pre ++ a0] := by
  simp only [IndentValue, h]
  cases pre with
  | nil => simp [Indent]
  | cons p ps => simp

theorem naryLines_single_true (ia : Nat) (pre : Str) {a : Value} {a0 : Str}
    (h : a.v = [a0]) : naryLines ia true pre true [a] = some [pre ++ a0] := by
  rw [naryLines, if_pos (by simp : (([] : List Value).isEmpty = true)),
    naryLines]
  simp only [Option.bind_eq_bind, Option.some_bind]
  show some ((IndentValue a pre.length pre).v ++ []) = _
  rw [IndentValue_single_pre a a0 pre h]
  rfl

theorem length_le_sum_lengths : ∀ (vs : List Value),
    (∀ a ∈ vs, a.v ≠ []) →
    vs.length ≤ (vs.map (fun x => x.v.length)).sum := by
  intro vs
  induction vs with
  | nil => intro; simp
  | cons b t ih =>
    intro h
    simp only [List.length_cons, List.map_cons, List.sum_cons]
    have hb := List.length_pos.mpr (h b (by simp))
    have ht := ih (fun a ha => h a (List.mem_cons_of_mem b ha))
    omega

/-! ### The claims -/

/-- Claim C1 (corrected): `WrapNAry` produces a single-line result exactly
when the argument list is empty, or no argument is multi-line and
`prefix.len + sum of argument widths + postfix.len < target_exp_width` —
the `", "` separators are NOT counted in the width test (see the
counterexample) — or the argument list is a single single-line argument
with `width + prefix.len < target_exp_width` (the multi-line branch then
merges the prefix onto that argument's line, reproducing the single-line
form); in every such case the result is exactly the one line
`prefix ++ a0 ++ ", " ++ a1 ++ ... ++ postfix`. -/
theorem wrapNAry_single_line (tw ia : Nat) (args : List Value)
    (pre post : Str) (hargs : ∀ a ∈ args, a.v ≠ []) :
    ((args = [] ∨ ((∀ a ∈ args, a.v.length = 1) ∧
        (args.map Value.width).sum + pre.length + post.length < tw)) →
      WrapNAry tw ia args pre post =
        some ⟨[pre ++ joinComma (args.map (fun a => a.v.headD [])) ++ post],
          false⟩) ∧
    ((∃ a, args = [a] ∧ a.v.length = 1 ∧ a.width + pre.length < tw) →
      WrapNAry tw ia args pre post =
        some ⟨[pre ++ joinComma (args.map (fun a => a.v.headD [])) ++ post],
          false⟩) ∧
    (∀ w, WrapNAry tw ia args pre post = some w → w.v.length = 1 →
      w = ⟨[pre ++ joinComma (args.map (fun a => a.v.headD [])) ++ post],
        false⟩ ∧
      ((args = [] ∨ ((∀ a ∈ args, a.v.length = 1) ∧
          (args.map Value.width).sum + pre.length + post.length < tw)) ∨
        (∃ a, args = [a] ∧ a.v.length = 1 ∧ a.width + pre.length < tw))) := by
  refine ⟨?_, ?_, ?_⟩
  · intro hc
    simp only [WrapNAry]
    split
    · rw [headsOf_eq hargs]
      rfl
    · next hn =>
      exfalso
      rcases hc with he | ⟨hall, hwlt⟩
      · subst he
        exact hn ⟨rfl, Or.inr rfl⟩
      · refine hn ⟨?_, Or.inl hwlt⟩
        rw [List.any_eq_false]
        intro x hx
        simp only [decide_eq_true_eq]
        rw [hall x hx]
        omega
  · rintro ⟨a, rfl, hlen, hiw⟩
    obtain ⟨a0, ha0⟩ := List.length_eq_one.mp hlen
    simp only [WrapNAry]
    split
    · rw [headsOf_eq hargs]
      rfl
    · have hiwd : decide (([a].map Value.width).foldl max 0 + pre.length < tw)
          = true := by
        apply decide_eq_true
        simp only [List.map_cons, List.map_nil, List.foldl_cons,
          List.foldl_nil, Nat.zero_max]
        exact hiw
      rw [hiwd, naryLines_single_true ia pre ha0]
      simp only [Option.bind_eq_bind, Option.some_bind]
      rw [if_pos trivial]
      have h3 : appendLast [pre ++ a0] post = some [pre ++ a0 ++ post] := rfl
      rw [h3]
      simp only [Option.some_bind]
      simp [ha0, joinComma]
  · intro w hw hw1
    simp only [WrapNAry] at hw
    split at hw
    · next hcond =>
      rw [headsOf_eq hargs] at hw
      simp only [Option.bind_eq_bind, Option.some_bind] at hw
      cases hw
      refine ⟨rfl, Or.inl ?_⟩
      rcases hcond with ⟨hml, hor⟩
      rcases hor with hlt | hnil
      · refine Or.inr ⟨?_, hlt⟩
        intro x hx
        have h1 := List.any_eq_false.mp hml x hx
        simp only [decide_eq_true_eq] at h1
        have h2 := List.length_pos.mpr (hargs x hx)
        omega
      · exact Or.inl hnil
    · next hncond =>
      have hane : args ≠ [] := by
        intro he
        subst he
        exact hncond ⟨rfl, Or.inr rfl⟩
      cases hL : naryLines ia
          (decide ((args.map Value.width).foldl max 0 + pre.length < tw))
          pre true args with
      | none => rw [hL] at hw; exact absurd hw (by simp)
      | some L =>
        rw [hL] at hw
        simp only [Option.bind_eq_bind, Option.some_bind] at hw
        cases hfin : appendLast
            (if decide ((args.map Value.width).foldl max 0 + pre.length < tw)
                = true then L else pre :: L) post with
        | none => rw [hfin] at hw; exact absurd hw (by simp)
        | some final =>
          rw [hfin] at hw
          cases hw
          have hf1 : final.length = 1 := hw1
          have hlenL := naryLines_length ia _ pre true args L hL
          have hflen := appendLast_length hfin
          by_cases hiw : decide
              ((args.map Value.width).foldl max 0 + pre.length < tw) = true
          · rw [if_pos hiw] at hflen
            have hsum1 : (args.map (fun x => x.v.length)).sum = 1 := by
              rw [← hlenL, ← hflen]
              exact hf1
            obtain ⟨a, rfl⟩ : ∃ a, args = [a] := by
              cases args with
              | nil => exact absurd rfl hane
              | cons b t =>
                cases t with
                | nil => exact ⟨b, rfl⟩
                | cons c t2 =>
                  exfalso
                  have hb := List.length_pos.mpr (hargs b (by simp))
                  have hc := List.length_pos.mpr (hargs c (by simp))
                  have hrest := length_le_sum_lengths t2
                    (fun x hx => hargs x (by simp [hx]))
                  simp only [List.map_cons, List.sum_cons] at hsum1
                  omega
            have halen : a.v.length = 1 := by
              simp only [List.map_cons, List.map_nil, List.sum_cons,
                List.sum_nil] at hsum1
              omega
            obtain ⟨a0, ha0⟩ := List.length_eq_one.mp halen
            have hwid : a.width + pre.length < tw := by
              have h0 := of_decide_eq_true hiw
              simp only [List.map_cons, List.map_nil, List.foldl_cons,
                List.foldl_nil, Nat.zero_max] at h0
              exact h0
            rw [hiw, naryLines_single_true ia pre ha0] at hL
            cases hL
            rw [if_pos hiw] at hfin
            have h3 : appendLast [pre ++ a0] post =
                some [pre ++ a0 ++ post] := rfl
            rw [h3] at hfin
            have hfe : final = [pre ++ a0 ++ post] :=
              (Option.some_inj.mp hfin).symm
            subst hfe
            refine ⟨?_, Or.inr ⟨a, rfl, halen, hwid⟩⟩
            simp [ha0, joinComma]
          · exfalso
            rw [if_neg hiw] at hflen
            simp only [List.length_cons] at hflen
            have hsum := length_le_sum_lengths args hargs
            have h1 : 1 ≤ args.length := List.length_pos.mpr hane
            omega

/-- Claim C1 witness: a single narrow argument with a call-style prefix and
postfix takes the single-line branch; a single argument of width 7 with
prefix `f(` and postfix `)` at width 10 fails the width test
(`7 + 2 + 1 = 10`, not `< 10`) yet yields the identical single-line form
through the multi-line branch. -/
theorem wrapNAry_single_line_witness :
    (∀ a ∈ [(⟨["42".data], false⟩ : Value)], a.v ≠ []) ∧
    WrapNAry 70 2 [⟨["42".data], false⟩] "f(".data ")".data =
      some ⟨["f(".data ++
        joinComma ([(⟨["42".data], false⟩ : Value)].map
          (fun a => a.v.headD [])) ++ ")".data], false⟩ ∧
    ¬(([(⟨[List.replicate 7 'a'], false⟩ : Value)].map Value.width).sum +
        "f(".data.length + ")".data.length < 10) ∧
    WrapNAry 10 2 [⟨[List.replicate 7 'a'], false⟩] "f(".data ")".data =
      some ⟨["f(".data ++
        joinComma ([(⟨[List.replicate 7 'a'], false⟩ : Value)].map
          (fun a => a.v.headD [])) ++ ")".data], false⟩ :=
  ⟨by decide,
    (wrapNAry_single_line 70 2 [⟨["42".data], false⟩] "f(".data ")".data
        (by decide)).1 (Or.inr ⟨by decide, by decide⟩),
    by decide,
    (wrapNAry_single_line 10 2 [⟨[List.replicate 7 'a'], false⟩] "f(".data
        ")".data (by decide)).2.1
      ⟨⟨[List.replicate 7 'a'], false⟩, rfl, by decide, by decide⟩⟩

/-- Claim C1 counterexample: two single-line arguments of widths 34 and 35
with empty prefix and postfix at `target_exp_width = 70`.  Counting the
`", "` separator the claimed width `34 + 2 + 35 = 71` is not `< 70`, yet
`WrapNAry` still produces the single-line form: the code's test
`total_width + prefix.size() + postfix.size() < target_exp_width_` sums
only the argument widths and never adds the separators. -/
theorem wrapNAry_single_line_counterexample :
    ¬((([(⟨[aLine], false⟩ : Value), ⟨[bLine], false⟩].map Value.width).sum +
        2 * ([(⟨[aLine], false⟩ : Value), ⟨[bLine], false⟩].length - 1) +
        ([] : Str).length + ([] : Str).length < 70) ∨
      ([(⟨[aLine], false⟩ : Value), ⟨[bLine], false⟩] : List Value) = []) ∧
    WrapNAry 70 2 [⟨[aLine], false⟩, ⟨[bLine], false⟩] [] [] =
      some ⟨[aLine ++ ", ".data ++ bLine], false⟩ := by decide

/-- Claim C2 (corrected): a rendered `Value` has at least one line for
every node except a `Statements` node with zero children (possibly behind
`Drop` nodes, which pass the child's rendering through): whenever
`yieldsEmpty n = false`, a successful `DecompileExpr` returns a non-empty
line vector.  The `Statements` case with zero children itself returns the
empty line vector (see the counterexample). -/
theorem decompile_lines_nonempty (tw ia : Nat) (n : Node) (v : Value)
    (h : DecompileExpr tw ia n = some v) (hy : yieldsEmpty n = false) :
    v.v ≠ [] :=
  decompile_some_ne tw ia n v h hy

/-- Claim C2 witness: an `i32.const` renders to one line. -/
theorem decompile_lines_nonempty_witness :
    DecompileExpr 70 2 (.constI32 42) = some ⟨["42".data], false⟩ ∧
    yieldsEmpty (.constI32 42) = false ∧
    (⟨["42".data], false⟩ : Value).v ≠ [] :=
  ⟨by decide, by decide,
    decompile_lines_nonempty 70 2 (.constI32 42) ⟨["42".data], false⟩
      (by decide) (by decide)⟩

/-- Claim C2 counterexample: a `Statements` node with zero children
renders to a `Value` with an empty line vector, so "at least one line"
does not hold for every node. -/
theorem decompile_lines_nonempty_counterexample :
    DecompileExpr 70 2 (.statements []) = some ⟨[], false⟩ ∧
    ¬∀ v : Value, DecompileExpr 70 2 (.statements []) = some v → v.v ≠ [] := by
  refine ⟨by decide, fun hall => ?_⟩
  exact hall ⟨[], false⟩ (by decide) rfl

/-- Claim C3: the nested add renders to the single line
`1 i32_add (2 i32_add 3)` at the default widths; the inner binary carries
`needs_bracketing = true` (hence the parentheses), the constants carry
`needs_bracketing = false` (hence no parentheses). -/
theorem nested_add_rendering :
    DecompileExpr target_exp_width indent_amount nestedAddTree =
      some ⟨["1 i32_add (2 i32_add 3)".data], true⟩ ∧
    DecompileExpr target_exp_width indent_amount
      (.binary "i32.add".data (.constI32 2) (.constI32 3)) =
      some ⟨["2 i32_add 3".data], true⟩ ∧
    DecompileExpr target_exp_width indent_amount (.constI32 1) =
      some ⟨["1".data], false⟩ := by decide

/-- Claim C4: on well-formed children, a `Statements` node renders to the
concatenation, in child order, of the children's lines with the last line
of each child terminated (`';'` appended unless the line already ends in
`'\x7d'`), and every child's terminated last line ends in `';'` or
`'\x7d'`. -/
theorem statements_termination (tw ia : Nat) (cs : List Node)
    (h : wfList cs = true) :
    ∃ args, DecompileList tw ia cs = some args ∧
      DecompileExpr tw ia (.statements cs) =
        some ⟨(args.map terminated).flatten, false⟩ ∧
      ∀ a ∈ args,
        terminated a = a.v.dropLast ++ [termLine (lastLineD a)] ∧
        ((lastD (terminated a)).getLast? = some ';' ∨
          (lastD (terminated a)).getLast? = some '\x7d') := by
  obtain ⟨args, hargs, hgood, -⟩ := wf_good_list tw ia cs h
  refine ⟨args, hargs, ?_, ?_⟩
  · simp only [DecompileExpr, hargs, Option.bind_eq_bind, Option.some_bind,
      statementsLines_eq hgood]
  · intro a _
    refine ⟨rfl, ?_⟩
    rw [terminated_lastD]
    exact termLine_ends _

/-- Claim C4 witness: the statement list `[i32.const 42, block]` renders
with `';'` after the constant and no `';'` after the block's `'\x7d'`. -/
theorem statements_termination_witness :
    wfList [Node.constI32 42,
      Node.blockNode "$B".data (.statements [.dropNode (.constI32 7)])] =
      true ∧
    ∃ args, DecompileList 70 2 [Node.constI32 42,
        Node.blockNode "$B".data (.statements [.dropNode (.constI32 7)])] =
        some args ∧
      DecompileExpr 70 2 (.statements [Node.constI32 42,
        Node.blockNode "$B".data (.statements [.dropNode (.constI32 7)])]) =
        some ⟨(args.map terminated).flatten, false⟩ ∧
      ∀ a ∈ args,
        terminated a = a.v.dropLast ++ [termLine (lastLineD a)] ∧
        ((lastD (terminated a)).getLast? = some ';' ∨
          (lastD (terminated a)).getLast? = some '\x7d') :=
  ⟨by decide,
    statements_termination 70 2 [Node.constI32 42,
      Node.blockNode "$B".data (.statements [.dropNode (.constI32 7)])]
      (by decide)⟩

/-- Claim C5 (corrected): for well-formed, `If`-free trees, rendering at
any two target widths yields values with the same space-free character
sequence and the same bracketing flag — layout only moves line breaks and
indentation.  The stronger readings fail: the sequence of space-separated
tokens can change (the multi-line `WrapNAry` glues the call prefix onto
the first argument), and with an `If` in operand position even the
space-free character sequence changes (the multi-line `If` keeps its
condition's `needs_bracketing`, adding parentheses); see the
counterexample. -/
theorem target_width_token_stability (tw1 tw2 ia : Nat) (n : Node)
    (hwf : wfNode n = true) (hf : ifFree n = true) :
    ∃ v1 v2, DecompileExpr tw1 ia n = some v1 ∧
      DecompileExpr tw2 ia n = some v2 ∧
      eraseVal v1 = eraseVal v2 ∧
      v1.needs_bracketing = v2.needs_bracketing := by
  obtain ⟨v1, v2, h1, h2, hr⟩ := widthIndep tw1 tw2 ia n hwf hf
  exact ⟨v1, v2, h1, h2, hr.2.2.1, hr.2.2.2.1⟩

/-- Claim C5 witness: the wide call at widths 40 and 200. -/
theorem target_width_token_stability_witness :
    wfNode wideCallTree = true ∧ ifFree wideCallTree = true ∧
    ∃ v1 v2, DecompileExpr 40 2 wideCallTree = some v1 ∧
      DecompileExpr 200 2 wideCallTree = some v2 ∧
      eraseVal v1 = eraseVal v2 ∧
      v1.needs_bracketing = v2.needs_bracketing :=
  ⟨by decide, by decide,
    target_width_token_stability 40 200 2 wideCallTree (by decide)
      (by decide)⟩

/-- Claim C5 counterexample: at widths 40 and 200 the wide call produces
different space-separated token sequences, and the add with an if/else
right operand produces different space-free character sequences (the
narrow width forces the multi-line `If`, which keeps its condition's
bracketing flag and so gains parentheses). -/
theorem target_width_token_stability_counterexample :
    (DecompileExpr 40 2 wideCallTree).map tokensVal ≠
      (DecompileExpr 200 2 wideCallTree).map tokensVal ∧
    (DecompileExpr 40 2 ifOperandTree).map eraseVal ≠
      (DecompileExpr 200 2 ifOperandTree).map eraseVal := by decide

/-- Claim C6: `BinaryToString` is the double-quoted concatenation of the
per-byte encodings; a printable byte (`0x20..0x7E`) is emitted as its
literal ASCII character, any other byte as `'\\'` followed by exactly two
lowercase hex digits; the data segment `d` with offset `0` and bytes
`\x7b0x48, 0x69, 0x00\x7d` is emitted as
`data d(offset: 0) = "Hi\00";` plus a newline. -/
theorem binary_to_string_encoding :
    (∀ bs : List Nat, BinaryToString bs =
      '\"' :: (bs.map encByte).flatten ++ ['\"']) ∧
    (∀ c : Nat, 32 ≤ c → c ≤ 126 → encByte c = [Char.ofNat c]) ∧
    (∀ c : Nat, ¬(32 ≤ c ∧ c ≤ 126) →
      encByte c = ['\\', hexDigit (c / 16), hexDigit (c % 16)] ∧
      hexDigit (c / 16) ∈ "0123456789abcdef".data ∧
      hexDigit (c % 16) ∈ "0123456789abcdef".data) ∧
    dataSegmentDecl "d".data (.constI32 0) [72, 105, 0] =
      some "data d(offset: 0) = \"Hi\\00\";\n".data := by
  refine ⟨binaryToString_eq, ?_, ?_, by decide⟩
  · intro c h1 h2
    simp only [encByte]
    rw [if_pos ⟨h1, h2⟩]
  · intro c hc
    refine ⟨?_, hexDigit_mem _, hexDigit_mem _⟩
    simp only [encByte]
    rw [if_neg hc]

/-- Claim C6 witness: the bytes of the data-segment example, one printable
(`0x48`) and one non-printable (`0x00`). -/
theorem binary_to_string_encoding_witness :
    BinaryToString [72, 105, 0] =
      '\"' :: ([72, 105, 0].map encByte).flatten ++ ['\"'] ∧
    encByte 72 = [Char.ofNat 72] ∧
    (encByte 0 = ['\\', hexDigit (0 / 16), hexDigit (0 % 16)] ∧
      hexDigit (0 / 16) ∈ "0123456789abcdef".data ∧
      hexDigit (0 % 16) ∈ "0123456789abcdef".data) :=
  ⟨binary_to_string_encoding.1 [72, 105, 0],
    binary_to_string_encoding.2.1 72 (by decide) (by decide),
    binary_to_string_encoding.2.2.1 0 (by decide)⟩

/-- Claim C7: for a default decimal rendering `intPart ++ '.' ++ fracPart`
with a non-empty integer part and a non-empty all-digit fractional part,
the trimmed literal keeps the same integer part and dot, still has at
least one fractional digit, and its fractional part ends in `'0'` only
when it is exactly `"0"` (i.e. the character before the final `'0'` is the
`'.'`). -/
theorem float_literal_trim (i f : Str) (hi : i ≠ []) (hf : f ≠ [])
    (hd : ∀ c ∈ f, c.isDigit = true) :
    ∃ f2, to_string_trimmed (i ++ '.' :: f) = i ++ '.' :: f2 ∧ f2 ≠ [] ∧
      (∀ c ∈ f2, c.isDigit = true) ∧
      (f2.getLast? = some '0' → f2 = ['0']) := by
  have hrev : (i ++ '.' :: f).reverse = f.reverse ++ '.' :: i.reverse := by
    simp
  obtain ⟨rf', htrim, hne, hdig, hz⟩ :=
    trimRev_frac f.reverse i.reverse (by simpa using hf)
      (fun c hc => hd c (by simpa using hc))
  refine ⟨rf'.reverse, ?_, by simpa using hne, ?_, ?_⟩
  · rw [to_string_trimmed, hrev, htrim]
    simp
  · intro c hc
    exact hdig c (by simpa using hc)
  · intro hlast
    rw [List.getLast?_reverse] at hlast
    rw [hz hlast]
    rfl

/-- Claim C7 witness: `"1.500000"` trims to `"1.5"` (and the hypotheses
hold for its parts). -/
theorem float_literal_trim_witness :
    ("1".data ≠ [] ∧ "500000".data ≠ [] ∧
      ∀ c ∈ "500000".data, c.isDigit = true) ∧
    ∃ f2, to_string_trimmed ("1".data ++ '.' :: "500000".data) =
        "1".data ++ '.' :: f2 ∧ f2 ≠ [] ∧
      (∀ c ∈ f2, c.isDigit = true) ∧
      (f2.getLast? = some '0' → f2 = ['0']) :=
  ⟨⟨by decide, by decide, by decide⟩,
    float_literal_trim "1".data "500000".data (by decide) (by decide)
      (by decide)⟩

/-- Claim C8 (corrected): on well-formed children (no nested zero-child
`Statements` node), every child of a `Statements` node renders to a value
with a last line and a last character, so both unchecked accesses
`args[i].v.back()` and `s.back()` are in bounds and the statements loop
succeeds.  Without that restriction the out-of-range branch IS reachable:
a child that is itself an empty `Statements` node renders to zero lines
(see the counterexample). -/
theorem statements_back_access (tw ia : Nat) (cs : List Node)
    (h : wfList cs = true) :
    ∃ args, DecompileList tw ia cs = some args ∧
      (∀ a ∈ args, a.v.getLast? ≠ none ∧ (lastLineD a).getLast? ≠ none) ∧
      statementsLines args ≠ none := by
  obtain ⟨args, hargs, hgood, -⟩ := wf_good_list tw ia cs h
  refine ⟨args, hargs, ?_, ?_⟩
  · intro a ha
    obtain ⟨h1, h2⟩ := hgood a ha
    exact ⟨getLast?_ne_none h1, getLast?_ne_none h2⟩
  · rw [statementsLines_eq hgood]
    exact Option.noConfusion

/-- Claim C8 witness: a one-statement list. -/
theorem statements_back_access_witness :
    wfList [Node.constI32 42] = true ∧
    ∃ args, DecompileList 70 2 [Node.constI32 42] = some args ∧
      (∀ a ∈ args, a.v.getLast? ≠ none ∧ (lastLineD a).getLast? ≠ none) ∧
      statementsLines args ≠ none :=
  ⟨by decide, statements_back_access 70 2 [Node.constI32 42] (by decide)⟩

/-- Claim C8 counterexample: a `Statements` child that is itself an empty
`Statements` node renders to zero lines, `args[i].v.back()` is out of
range, and the whole render hits the modelled out-of-bounds branch. -/
theorem statements_back_access_counterexample :
    DecompileList 70 2 [.statements []] = some [⟨[], false⟩] ∧
    statementsLines [⟨[], false⟩] = none ∧
    DecompileExpr 70 2 (.statements [.statements []]) = none := by decide

/-- Claim C9: when the address value does not need bracketing, `LoadStore`
only appends the access suffix (`'.' ++ field` when the tracker named a
field, otherwise `'[' ++ offset ++ "]:" ++ type` plus `'@' ++ align` when
not naturally aligned) to the last line: line count and all other lines
are unchanged and the flag stays `false`. -/
theorem loadStore_frame_effect (tw ia : Nat) (val : Value) (info : LSInfo)
    (hnb : val.needs_bracketing = false) (h1 : val.v ≠ []) :
    ∃ w, LoadStore tw ia val info = some w ∧
      w.v = val.v.dropLast ++ [lastLineD val ++ lsSuffix info] ∧
      w.v.length = val.v.length ∧
      w.v.dropLast = val.v.dropLast ∧
      w.needs_bracketing = false ∧
      lsSuffix info = (if info.access ≠ [] then '.' :: info.access
        else '[' :: nstr info.offset ++ "]:".data ++ info.typeName ++
          (if info.naturallyAligned then [] else '@' :: nstr info.align)) := by
  have hB : BracketIfNeeded tw ia val = some val := by
    rw [BracketIfNeeded, if_neg (by simp [hnb])]
  have happ := appendLast_eq (lsSuffix info) h1
  have hpos : 0 < val.v.length := List.length_pos.mpr h1
  refine ⟨⟨val.v.dropLast ++ [lastLineD val ++ lsSuffix info],
    val.needs_bracketing⟩, ?_, rfl, ?_, ?_, hnb, rfl⟩
  · simp only [LoadStore, hB, Option.bind_eq_bind, Option.some_bind, happ]
    rfl
  · show (val.v.dropLast ++ [lastLineD val ++ lsSuffix info]).length = _
    rw [List.length_append, List.length_dropLast]
    simp only [List.length_cons, List.length_nil]
    omega
  · show (val.v.dropLast ++ [lastLineD val ++ lsSuffix info]).dropLast = _
    rw [List.dropLast_concat]

/-- Claim C9 witness: a one-line unbracketed address with a field access
suffix. -/
theorem loadStore_frame_effect_witness :
    ((⟨["base".data], false⟩ : Value).needs_bracketing = false ∧
      (⟨["base".data], false⟩ : Value).v ≠ []) ∧
    ∃ w, LoadStore 70 2 ⟨["base".data], false⟩
        ⟨"next".data, 4, "int".data, true, 4⟩ = some w ∧
      w.v = (["base".data] : List Str).dropLast ++
        [lastLineD ⟨["base".data], false⟩ ++
          lsSuffix ⟨"next".data, 4, "int".data, true, 4⟩] ∧
      w.v.length = (["base".data] : List Str).length ∧
      w.v.dropLast = (["base".data] : List Str).dropLast ∧
      w.needs_bracketing = false ∧
      lsSuffix ⟨"next".data, 4, "int".data, true, 4⟩ =
        (if ("next".data : Str) ≠ [] then '.' :: "next".data
          else '[' :: nstr 4 ++ "]:".data ++ "int".data ++
            (if (true : Bool) then [] else '@' :: nstr 4)) :=
  ⟨⟨rfl, by decide⟩,
    loadStore_frame_effect 70 2 ⟨["base".data], false⟩
      ⟨"next".data, 4, "int".data, true, 4⟩ rfl (by decide)⟩

/-- Claim C10: `BinaryToString` is not injective — the byte vectors
`\x7b0x00\x7d` and `\x7b0x5C, 0x30, 0x30\x7d` are distinct but both render
as `"\00"` — and the bytes `0x22` (double quote) and `0x5C` (backslash)
are printable, so they are emitted literally without escaping. -/
theorem binary_to_string_not_injective :
    BinaryToString [0] = BinaryToString [92, 48, 48] ∧
    ([0] : List Nat) ≠ [92, 48, 48] ∧
    BinaryToString [34] = ['\"', '\"', '\"'] ∧
    BinaryToString [92] = ['\"', '\\', '\"'] := by decide

end Wabt
